import Mathlib

/-!
Verification of the text-processing core of the bilbot-baggins repository
(PDF/TXT → normalized text → sentence chunks → TTS jobs).

Texts are modelled as `List Char`.  Python string operations (`str.strip`,
`str.split`, `str.splitlines`, `re.sub`, …) are embedded as executable Lean
functions.  Scanning functions that consume a non-structural amount of input
per step take an explicit fuel argument (always instantiated with the length
of the input, which suffices because every step consumes at least one
character); this keeps every definition reducible by the kernel.

Scope notes on the embedding:
* character classes (`\w`, `\d`, `[A-Za-z]`, `str.isalpha`, `str.lower`) are
  modelled at ASCII precision, which is exact for every input appearing in
  the theorems below;
* Python `float` constants (`0.001`, `0.75`, the scoring weights) are
  modelled as exact rationals.
-/

namespace Bilbot

/-- Python's whitespace set (`str.isspace`, regex `\s` for `str` patterns). -/
def pyWs (c : Char) : Bool :=
  c = ' ' || c = '\t' || c = '\n' || c = '\r' || c = '\x0b' || c = '\x0c' ||
  c = '\x1c' || c = '\x1d' || c = '\x1e' || c = '\x1f' || c = '\x85' ||
  c = '\xa0' || c = '\u1680' ||
  ('\u2000' ≤ c && c ≤ '\u200A') ||
  c = '\u2028' || c = '\u2029' || c = '\u202F' || c = '\u205F' || c = '\u3000'

/-- Regex `\w` (ASCII scope): letters, digits, underscore. -/
def isWordChar (c : Char) : Bool :=
  (('a' ≤ c && c ≤ 'z') || ('A' ≤ c && c ≤ 'Z') || ('0' ≤ c && c ≤ '9') || c = '_')

/-- ASCII letter ([A-Za-z], Python `str.isalpha` at ASCII scope). -/
def isAsciiLetter (c : Char) : Bool :=
  ('a' ≤ c && c ≤ 'z') || ('A' ≤ c && c ≤ 'Z')

def isAsciiUpper (c : Char) : Bool := 'A' ≤ c && c ≤ 'Z'

def isAsciiLower (c : Char) : Bool := 'a' ≤ c && c ≤ 'z'

def isAsciiDigit (c : Char) : Bool := '0' ≤ c && c ≤ '9'

/-- ASCII lower-casing (Python `str.lower` at ASCII scope). -/
def lowerChar (c : Char) : Char := c.toLower

def lowerList (l : List Char) : List Char := l.map lowerChar

/-- A regex word boundary `\b` at a position whose previous character is
`prev` (`none` at the start of the string) and whose current character is
`c`. -/
def wordBoundary (prev : Option Char) (c : Char) : Bool :=
  match prev with
  | none => isWordChar c
  | some p => isWordChar p ≠ isWordChar c

/-- Python `str.strip()` (both ends, Python whitespace set). -/
def stripWs (l : List Char) : List Char :=
  ((l.dropWhile pyWs).reverse.dropWhile pyWs).reverse

/-- Python `str.rstrip()`. -/
def rstripWs (l : List Char) : List Char :=
  (l.reverse.dropWhile pyWs).reverse

/-- Worker for `pySplit`; `fuel` bounds the recursion depth (each step
consumes at least one character). -/
def pySplitF : Nat → List Char → List (List Char)
  | 0, _ => []
  | fuel + 1, l =>
    match l.dropWhile pyWs with
    | [] => []
    | c :: r =>
      let w := (c :: r).takeWhile (fun x => !pyWs x)
      w :: pySplitF fuel ((c :: r).drop w.length)

/-- Python `str.split()` with no separator: whitespace-delimited words, no
empty strings. -/
def pySplit (l : List Char) : List (List Char) := pySplitF l.length l

/-- Python-style line boundary characters for `str.splitlines()`. -/
def isLineBreakChar (c : Char) : Bool :=
  c = '\n' || c = '\r' || c = '\x0b' || c = '\x0c' ||
  c = '\x1c' || c = '\x1d' || c = '\x1e' || c = '\x85' ||
  c = '\u2028' || c = '\u2029'

/-- Worker for `pySplitlines` (accumulator is the current line, reversed). -/
def pySplitlinesGo (acc : List Char) : List Char → List (List Char)
  | [] => if acc.isEmpty then [] else [acc.reverse]
  | '\r' :: '\n' :: r => acc.reverse :: pySplitlinesGo [] r
  | c :: r =>
    if isLineBreakChar c then acc.reverse :: pySplitlinesGo [] r
    else pySplitlinesGo (c :: acc) r

/-- Python `str.splitlines()`: no trailing empty line for a terminal
line break. -/
def pySplitlines (l : List Char) : List (List Char) := pySplitlinesGo [] l

/-- Python `str.split(sep)` for a single-character separator. -/
def splitOnCharGo (sep : Char) (acc : List Char) : List Char → List (List Char)
  | [] => [acc.reverse]
  | c :: r =>
    if c = sep then acc.reverse :: splitOnCharGo sep [] r
    else splitOnCharGo sep (c :: acc) r

def splitOnChar (sep : Char) (l : List Char) : List (List Char) :=
  splitOnCharGo sep [] l

/-- Worker for `splitOnSub` (Python `str.split(sep)` for a multi-character
separator); fuel bounds the recursion. -/
def splitOnSubF (sep : List Char) : Nat → List Char → List Char → List (List Char)
  | 0, acc, rest => [acc.reverse ++ rest]
  | _ + 1, acc, [] => [acc.reverse]
  | fuel + 1, acc, c :: r =>
    if sep.isPrefixOf (c :: r) then
      acc.reverse :: splitOnSubF sep fuel [] ((c :: r).drop sep.length)
    else
      splitOnSubF sep fuel (c :: acc) r

/-- Python `str.split(sep)` (non-overlapping, left to right). -/
def splitOnSub (sep : List Char) (l : List Char) : List (List Char) :=
  splitOnSubF sep l.length [] l

/-- Worker for `replaceSub` (Python `str.replace`). -/
def replaceSubF (pat repl : List Char) : Nat → List Char → List Char
  | 0, rest => rest
  | _ + 1, [] => []
  | fuel + 1, c :: r =>
    if pat.isPrefixOf (c :: r) then
      repl ++ replaceSubF pat repl fuel ((c :: r).drop pat.length)
    else
      c :: replaceSubF pat repl fuel r

/-- Python `str.replace(pat, repl)` for a non-empty pattern. -/
def replaceSub (pat repl : List Char) (l : List Char) : List Char :=
  replaceSubF pat repl l.length l

/-- `sep.join(parts)` (Python `str.join`). -/
def joinWith (sep : List Char) : List (List Char) → List Char
  | [] => []
  | [x] => x
  | x :: y :: rest => x ++ sep ++ joinWith sep (y :: rest)

/-- Python tuple `str.endswith((...))`: last character in the given set. -/
def endsWithOneOf (cs : List Char) (l : List Char) : Bool :=
  match l.getLast? with
  | none => false
  | some c => cs.contains c

/-!
## Generic `re.sub` driver

A matcher receives the character preceding the current position (`none` at
the start of the original string, for `\b` tests) and the remaining input;
it returns `(k, repl)` when the pattern matches `k ≥ 1` characters here and
is to be replaced by `repl`.  The driver scans left to right, non
overlapping, exactly like `re.sub`.
-/

abbrev Matcher := Option Char → List Char → Option (Nat × List Char)

def reSubF (m : Matcher) : Nat → Option Char → List Char → List Char
  | 0, _, _ => []
  | _ + 1, _, [] => []
  | fuel + 1, prev, c :: rest =>
    match m prev (c :: rest) with
    | some (k, repl) =>
      if k = 0 then c :: reSubF m fuel (some c) rest
      else repl ++ reSubF m fuel (some ((c :: rest.take (k - 1)).getLastD c)) (rest.drop (k - 1))
    | none => c :: reSubF m fuel (some c) rest

/-- `re.sub` with matcher `m` over the whole input (initial position has no
preceding character). -/
def reSub (m : Matcher) (l : List Char) : List Char :=
  reSubF m l.length none l

/-!
## `textproc/chunking.py`: sentence segmentation and chunking
-/

/-- `_ABBR_DOT`: placeholder protecting abbreviation periods. -/
def abbrDot : List Char := "§DOT§".toList

/-- `_ABBR_LIST`, in source order (regex alternation order is semantic). -/
def abbrList : List (List Char) :=
  ["Mr", "Mrs", "Ms", "Dr", "Prof", "Sr", "Jr", "St",
   "vs", "etc", "Fig", "No", "Vol", "pp", "p", "Ch", "Mt",
   "Jan", "Feb", "Mar", "Apr", "May", "Jun", "Jul", "Aug", "Sep", "Oct", "Nov", "Dec",
   "B", "M", "Ph", "Ed"].map String.toList

/-- Case-insensitive literal prefix test (ASCII lower-casing). -/
def ciPrefix (tok : List Char) (s : List Char) : Bool :=
  tok.length ≤ s.length && lowerList (s.take tok.length) == lowerList tok

/-- First abbreviation alternative that matches here and is followed by a
period (regex alternation: first full match in list order wins). -/
def findAbbrTok (s : List Char) : List (List Char) → Option Nat
  | [] => none
  | tok :: rest =>
    if ciPrefix tok s && ((s.drop tok.length).head? == some '.') then some tok.length
    else findAbbrTok s rest

/-- Matcher for `_ABBR_SIMPLE_RE` = `\b(Mr|Mrs|...)\.` (ignorecase), replaced
by `\1§DOT§` (the original matched characters with the dot swapped for the
placeholder). -/
def mAbbrSimple : Matcher := fun prev s =>
  match s with
  | [] => none
  | c :: _ =>
    if wordBoundary prev c then
      match findAbbrTok s abbrList with
      | some n => some (n + 1, s.take n ++ abbrDot)
      | none => none
    else none

/-- The character class `[B|M|Ph|Ed]` of `_DEGREE_DOTTED_RE` (a class, so a
single character from the set, case-insensitively). -/
def degreeClass1 (c : Char) : Bool :=
  let l := lowerChar c
  l = 'b' || l = 'm' || l = 'p' || l = 'h' || l = 'e' || l = 'd' || c = '|'

/-- The character class `[A|D]` of `_DEGREE_DOTTED_RE`. -/
def degreeClass2 (c : Char) : Bool :=
  let l := lowerChar c
  l = 'a' || l = 'd' || c = '|'

/-- Matcher for `_DEGREE_DOTTED_RE` = `\b([B|M|Ph|Ed])\.\s*([A|D])\.`
(ignorecase), replaced by `\1§DOT§ \2§DOT§`. -/
def mDegree : Matcher := fun prev s =>
  match s with
  | c :: '.' :: r =>
    if degreeClass1 c && wordBoundary prev c then
      let w := r.takeWhile pyWs
      match r.drop w.length with
      | c2 :: '.' :: _ =>
        if degreeClass2 c2 then
          some (2 + w.length + 2, c :: (abbrDot ++ (' ' :: c2 :: abbrDot)))
        else none
      | _ => none
    else none
  | _ => none

/-- Matcher for `\b([A-Za-z])\.\s+(?=[A-Za-z]\.)` replaced by
`\1§DOT§ ` (the lookahead is not consumed). -/
def mSingleLetterDotSpace : Matcher := fun prev s =>
  match s with
  | c :: '.' :: r =>
    if isAsciiLetter c && wordBoundary prev c then
      let w := r.takeWhile pyWs
      if w.length = 0 then none
      else
        match r.drop w.length with
        | c2 :: '.' :: _ =>
          if isAsciiLetter c2 then some (2 + w.length, c :: (abbrDot ++ [' '])) else none
        | _ => none
    else none
  | _ => none

/-- Matcher for `\b([A-Za-z])\.(?=\s*[A-Za-z]\b)` replaced by `\1§DOT§`. -/
def mSingleLetterDot : Matcher := fun prev s =>
  match s with
  | c :: '.' :: r =>
    if isAsciiLetter c && wordBoundary prev c then
      match r.dropWhile pyWs with
      | c2 :: r2 =>
        if isAsciiLetter c2 then
          match r2 with
          | [] => some (2, c :: abbrDot)
          | c3 :: _ => if isWordChar c3 then none else some (2, c :: abbrDot)
        else none
      | [] => none
    else none
  | _ => none

/-- `_protect_abbreviations`: the four substitutions, in source order. -/
def protect_abbreviations (t : List Char) : List Char :=
  reSub mSingleLetterDot (reSub mSingleLetterDotSpace (reSub mDegree (reSub mAbbrSimple t)))

/-- `_restore_abbreviations`: `text.replace("§DOT§", ".")`. -/
def restore_abbreviations (t : List Char) : List Char := replaceSub abbrDot ['.'] t

/-- `[A-Z"'(\[]`: likely sentence-start characters of `_SENT_SPLIT_RE`. -/
def sentenceStartChar (c : Char) : Bool :=
  isAsciiUpper c || c = '"' || c = '\'' || c = '(' || c = '['

/-- Scanner for `_SENT_SPLIT_RE.split`: split on `(?<=[.?!])\s+(?=[A-Z"'(\[])`
(the whitespace run is consumed; both lookarounds are not). -/
def sentSplitF : Nat → Option Char → List Char → List Char → List (List Char)
  | 0, _, acc, rest => [acc.reverse ++ rest]
  | _ + 1, _, acc, [] => [acc.reverse]
  | fuel + 1, prev, acc, c :: rest =>
    if pyWs c && (prev == some '.' || prev == some '?' || prev == some '!') then
      let run := (c :: rest).takeWhile pyWs
      match (c :: rest).drop run.length with
      | c2 :: _ =>
        if sentenceStartChar c2 then
          acc.reverse :: sentSplitF fuel (some (run.getLastD c)) [] ((c :: rest).drop run.length)
        else sentSplitF fuel (some c) (c :: acc) rest
      | [] => sentSplitF fuel (some c) (c :: acc) rest
    else sentSplitF fuel (some c) (c :: acc) rest

/-- `split_into_sentences` from `textproc/chunking.py`. -/
def split_into_sentences (text : List Char) : List (List Char) :=
  let t := stripWs text
  if t.isEmpty then []
  else
    let prot := protect_abbreviations t
    let parts := sentSplitF prot.length none [] prot
    (parts.filter (fun p => !p.isEmpty && !(stripWs p).isEmpty)).map
      (fun p => stripWs (restore_abbreviations p))

/-- The inner word loop of `smart_split_into_chunks` (soft-wrapping one
oversized sentence on spaces); returns the updated `(chunks, cur2)`. -/
def chunkWords (L : Nat) : List (List Char) → List Char → List (List Char) →
    List (List Char) × List Char
  | [], cur2, chunks => (chunks, cur2)
  | w :: rest, cur2, chunks =>
    if cur2.length + w.length + (if cur2.isEmpty then 0 else 1) ≤ L then
      chunkWords L rest (if cur2.isEmpty then w else cur2 ++ ' ' :: w) chunks
    else chunkWords L rest w (chunks ++ [cur2])

/-- The sentence loop of `smart_split_into_chunks`. -/
def chunkGo (L : Nat) : List (List Char) → List Char → List (List Char) → List (List Char)
  | [], cur, chunks => if cur.isEmpty then chunks else chunks ++ [cur]
  | s :: rest, cur, chunks =>
    if s.isEmpty then chunkGo L rest cur chunks
    else if cur.length + s.length + (if cur.isEmpty then 0 else 1) ≤ L then
      chunkGo L rest (if cur.isEmpty then s else cur ++ ' ' :: s) chunks
    else
      let chunks1 := if cur.isEmpty then chunks else chunks ++ [cur]
      if L < s.length then
        let p := chunkWords L (pySplit s) [] chunks1
        chunkGo L rest p.2 p.1
      else chunkGo L rest s chunks1

/-- `smart_split_into_chunks` from `textproc/chunking.py` (default
`max_length = 2200`). -/
def smart_split_into_chunks (text : List Char) (maxLength : Nat) : List (List Char) :=
  chunkGo maxLength (split_into_sentences text) [] []

/-!
## `textproc/tts.py`: sanitization and the synthesis artifact key

`hashlib.sha256` is an external library capability; it enters the embedding
as an explicit function parameter `sha256hex` (the hex digest of a text).
-/

/-- The `_SANITIZER` class `[\u0000-\u0008\u000B\u000C\u000E-\u001F\u007F]`. -/
def ttsCtrlChar (c : Char) : Bool :=
  c ≤ '\x08' || c = '\x0b' || c = '\x0c' || ('\x0e' ≤ c && c ≤ '\x1f') || c = '\x7f'

/-- Matcher deleting one `_SANITIZER` character (replaced by a space). -/
def mTTSCtrl : Matcher := fun _ s =>
  match s with
  | c :: _ => if ttsCtrlChar c then some (1, [' ']) else none
  | [] => none

/-- Matcher for `[ \t]{2,}` replaced by a single space. -/
def mSpaceTab2 : Matcher := fun _ s =>
  let run := s.takeWhile (fun c => c = ' ' || c = '\t')
  if 2 ≤ run.length then some (run.length, [' ']) else none

/-- `sanitize` from `textproc/tts.py`. -/
def sanitize (t : List Char) : List Char :=
  stripWs (replaceSub ['&'] " and ".toList (reSub mSpaceTab2 (reSub mTTSCtrl t)))

/-- `TTSConfig` from `textproc/tts.py` (the voice configuration). -/
structure TTSConfig where
  voice : List Char
  rate_pct : Int
  pitch_hz : Int
  deriving DecidableEq

/-- Decimal digits of a natural number. -/
def natDecimal (n : Nat) : List Char := Nat.toDigits 10 n

/-- Python `f"{n:05d}"`-style zero padding. -/
def zfill (w : Nat) (n : Nat) : List Char :=
  let d := natDecimal n
  List.replicate (w - d.length) '0' ++ d

/-- `_slug`: first 16 characters of the sha256 hex digest. -/
def slugOf (sha256hex : List Char → List Char) (s : List Char) : List Char :=
  (sha256hex s).take 16

/-- The mp3 artifact name `f"{chunk_idx:05d}_{_slug(text)}.mp3"` built by
`synth_chunk` for the already-sanitized text. -/
def mp3_filename (sha256hex : List Char → List Char) (chunk_idx : Nat)
    (sanitized : List Char) : List Char :=
  zfill 5 chunk_idx ++ ('_' :: slugOf sha256hex sanitized) ++ ".mp3".toList

/-- The cached-artifact key of a synthesis job as `synth_chunk` computes it:
the text is sanitized, and the file name combines the chunk index with the
slug of the sanitized text.  The voice configuration `cfg` is accepted (it
is an argument of `synth_chunk`) but does not enter the name. -/
def synth_output_key (sha256hex : List Char → List Char) (cfg : TTSConfig)
    (chunk_idx : Nat) (text : List Char) : List Char :=
  let _ := cfg
  mp3_filename sha256hex chunk_idx (sanitize text)

/-!
## `app.py`: coalescing, the synthesis loop, retry
-/

/-- `sanitize_for_tts` from `app.py`. -/
def sanitize_for_tts (t : List Char) : List Char :=
  replaceSub ['>'] [] (replaceSub ['<'] [] (replaceSub ['&'] " and ".toList t))

/-- `SAFE_MAX = 1800`: the conservative per-call limit for edge-tts. -/
def SAFE_MAX : Nat := 1800

/-- Worker for `slicesOf`. -/
def slicesOfF : Nat → Nat → List Char → List (List Char)
  | _, _, [] => []
  | 0, _, l => [l]
  | fuel + 1, n, l => l.take n :: slicesOfF fuel n (l.drop n)

/-- `[text[j:j+n] for j in range(0, len(text), n)]`. -/
def slicesOf (n : Nat) (l : List Char) : List (List Char) := slicesOfF l.length n l

/-- The retry loop of `synthesize_with_retry`: attempt numbers start at 1;
`memOk a` models `check_and_clean_memory(85)` before attempt `a` and
`attemptOk a` models whether the synthesis call at attempt `a` succeeds. -/
def retryGo (memOk attemptOk : Nat → Bool) : Nat → Nat → Bool
  | _, 0 => false
  | a, rem + 1 =>
    if !memOk a then false
    else if attemptOk a then true
    else retryGo memOk attemptOk (a + 1) rem

/-- `synthesize_with_retry` from `app.py` (returns success as a Bool). -/
def synthesize_with_retry (memOk attemptOk : Nat → Bool) (tries : Nat) : Bool :=
  retryGo memOk attemptOk 1 tries

/-- `coalesce_chunks` loop state: remaining chunks, `out`, `buf`, `size`.
The source's `size < target * 0.75` is modelled exactly as
`4 * size < 3 * target` (0.75 is a dyadic rational, so the float comparison
is exact). -/
def coalesceGo (target hard_cap : Nat) :
    List (List Char) → List (List Char) → List (List Char) → Nat → List (List Char)
  | [], out, buf, _ => if buf.isEmpty then out else out ++ [joinWith "\n\n".toList buf]
  | ch :: rest, out, buf, size =>
    let L := ch.length
    if buf.isEmpty then coalesceGo target hard_cap rest out [ch] L
    else if size + 1 + L ≤ hard_cap && (size + 1 + L ≤ target || 4 * size < 3 * target) then
      coalesceGo target hard_cap rest out (buf ++ [ch]) (size + 1 + L)
    else coalesceGo target hard_cap rest (out ++ [joinWith "\n\n".toList buf]) [ch] L

/-- `coalesce_chunks` from `app.py` (defaults `target=3300`,
`hard_cap=3800`); buffered chunks are joined with `"\n\n"` while `size`
accounts only `+1` per join. -/
def coalesce_chunks (chunks : List (List Char)) (target hard_cap : Nat) :
    List (List Char) :=
  coalesceGo target hard_cap chunks [] [] 0

/-- The Generate-Audio loop of `app.py` over `enumerate(chunks, 1)`:
empty-stripped chunks are skipped; every 10th index a memory check `hmem i`
may break the loop; otherwise the chunk is sanitized, hard-capped into
`SAFE_MAX`-sized parts, and each part is synthesized with `ok`; successful
parts accumulate in order (`part_paths`), failing parts are appended to
`skipped` verbatim. -/
def genLoop (hmem : Nat → Bool) (ok : List Char → Bool) :
    Nat → List (List Char) → List (List Char) × List (List Char)
  | _, [] => ([], [])
  | i, ch :: rest =>
    if (stripWs ch).isEmpty then genLoop hmem ok (i + 1) rest
    else if i % 10 = 0 && !hmem i then ([], [])
    else
      let safe := sanitize_for_tts ch
      let parts := if SAFE_MAX < safe.length then slicesOf SAFE_MAX safe else [safe]
      let r := genLoop hmem ok (i + 1) rest
      (parts.filter ok ++ r.1, parts.filter (fun p => !ok p) ++ r.2)

/-- The Generate-Audio handler of `app.py`: runs the loop with
`synthesize_with_retry(..., tries=3)` per fragment and raises
(`Except.error`) exactly when no part was produced; otherwise the ordered
successful parts (to be concatenated) and the skipped fragments. -/
def generate_audio (hmem : Nat → Bool) (memOk attemptOk : List Char → Nat → Bool)
    (chunks : List (List Char)) : Except Unit (List (List Char) × List (List Char)) :=
  let ok := fun p => synthesize_with_retry (memOk p) (attemptOk p) 3
  let r := genLoop hmem ok 1 chunks
  if r.1.isEmpty then Except.error () else Except.ok r

/-- Specification-side companion of `genLoop`: the list of fragments the
run attempts to synthesize (same traversal, independent of synthesis
outcomes, which cannot influence the control flow). -/
def attempted_fragments (hmem : Nat → Bool) : Nat → List (List Char) → List (List Char)
  | _, [] => []
  | i, ch :: rest =>
    if (stripWs ch).isEmpty then attempted_fragments hmem (i + 1) rest
    else if i % 10 = 0 && !hmem i then []
    else
      let safe := sanitize_for_tts ch
      (if SAFE_MAX < safe.length then slicesOf SAFE_MAX safe else [safe]) ++
        attempted_fragments hmem (i + 1) rest

/-!
## `textproc/extractors.py`: the extraction scorer

Float arithmetic is modelled exactly in `ℚ` (all constants are decimal
literals).
-/

/-- First alternative of a case-insensitive, `\b`-delimited token set that
fully matches at this position (alternation order is list order). -/
def findTokCIGo (s : List Char) : List (List Char) → Option Nat
  | [] => none
  | tok :: rest =>
    if ciPrefix tok s &&
        (match (s.drop tok.length).head? with
         | none => true
         | some c2 => !isWordChar c2) then
      some tok.length
    else findTokCIGo s rest

/-- `\b(tok₁|tok₂|…)\b` (ignorecase) anchored at the current position. -/
def findTokCI (toks : List (List Char)) (prev : Option Char) (s : List Char) : Option Nat :=
  match s with
  | [] => none
  | c :: _ => if wordBoundary prev c then findTokCIGo s toks else none

/-- `len(re.findall(r"\b(tok₁|…)\b", s, re.IGNORECASE))`: non-overlapping
left-to-right count. -/
def countTokensCIF (toks : List (List Char)) : Nat → Option Char → List Char → Nat
  | 0, _, _ => 0
  | _ + 1, _, [] => 0
  | fuel + 1, prev, c :: rest =>
    match findTokCI toks prev (c :: rest) with
    | some n =>
      1 + countTokensCIF toks fuel (some (((c :: rest).take n).getLastD c)) ((c :: rest).drop n)
    | none => countTokensCIF toks fuel (some c) rest

def countTokensCI (toks : List (List Char)) (l : List Char) : Nat :=
  countTokensCIF toks l.length none l

/-- `re.search(r"\b(tok₁|…)\b", l, re.IGNORECASE)` as a Bool. -/
def hasTokenCI (toks : List (List Char)) (l : List Char) : Bool :=
  countTokensCI toks l ≠ 0

/-- The `broken_patterns` alternatives of `score_text`, in source order. -/
def brokenTokens : List (List Char) :=
  ["t he", "w as", "i s", "a re", "h as", "h ad",
   "w ith", "f rom", "t hat", "t his"].map String.toList

/-- `score_text` from `textproc/extractors.py` (`'�'` in the source is the
replacement character U+FFFD, so that count appears twice). -/
def score_text (s : List Char) : ℚ :=
  if s.isEmpty || s.length < 50 then 0
  else
    let n : ℚ := s.length
    let letters : ℚ := (s.filter isAsciiLetter).length
    let spaces : ℚ := (s.filter (fun c => c = ' ')).length
    let words := pySplit s
    let avg_word_len : ℚ := ((words.map List.length).sum : ℚ) / ((max 1 words.length : Nat) : ℚ)
    if 15 < avg_word_len then 0.1
    else
      let broken_count : Nat := countTokensCI brokenTokens (s.take 1000)
      if 3 < broken_count then 0.2
      else
        let junk : ℚ :=
          ((s.filter (fun c => c = '�')).length : ℚ) +
          ((s.filter (fun c => c = '�')).length : ℚ) +
          ((s.filter (fun c => c = '\x00')).length : ℚ)
        let lines := pySplitlines s
        let avg_line : ℚ :=
          if lines.isEmpty then 0
          else ((lines.map List.length).sum : ℚ) / ((max 1 lines.length : Nat) : ℚ)
        let score :=
          (letters / n) * 0.35 + (spaces / n) * 0.25 +
          (1 - (min avg_word_len 20) / 20) * 0.20 + (avg_line / 120) * 0.15 -
          (junk / (max 1 n)) * 0.30 - (broken_count : ℚ) * 0.05
        max 0 score

/-!
## `text_processor.py` (`TextProcessor.read_pdf_file`)

This is the implementation `app.py` imports.  The pdf backends
(`pdfplumber`, `pypdf`) are external library capabilities: each is modelled
as the list of per-page texts it appended to `text_parts` together with a
flag telling whether it ran to completion (an exception leaves the pages
appended so far and sets the flag to false).  Note `text_parts` is shared:
the pypdf fallback appends to whatever pdfplumber left behind.
-/

def read_pdf_file (plumber : List (List Char) × Bool) (pypdf : List (List Char) × Bool) :
    List Char :=
  let viaPypdf : List Char :=
    if pypdf.2 then stripWs (joinWith ['\n'] (plumber.1 ++ pypdf.1)) else []
  if plumber.2 then
    let r := stripWs (joinWith ['\n'] plumber.1)
    if !r.isEmpty then r else viaPypdf
  else viaPypdf

/-- Following the specification's words (§4.2): "Runs every available
native backend independently (a backend that throws or returns empty text
is simply excluded from comparison).  Each candidate is scored; the native
candidate with the highest score is retained."  Used only to compare the
claimed selection rule against `read_pdf_file`. -/
def spec_best_native_candidate (cands : List (Option (List Char))) : Option (List Char) :=
  let valid := (cands.filterMap id).filter (fun t => !t.isEmpty)
  valid.foldl
    (fun best t =>
      match best with
      | none => some t
      | some b => if score_text b < score_text t then some t else best)
    none

/-!
## A small backtracking regex engine

Used for the deletion-only patterns of `textproc/cleaners.py` whose
optional/greedy parts genuinely backtrack.  A pattern maps an input suffix
to the list of possible remainders, ordered by the regex engine's
backtracking priority (greedy parts longest first, alternatives in source
order); the head of the list is the match the Python engine commits to.
-/

abbrev REng := List Char → List (List Char)

def reEps : REng := fun s => [s]

def reSeq (a b : REng) : REng := fun s => (a s).flatMap b

def reAlt (a b : REng) : REng := fun s => a s ++ b s

def reOpt (a : REng) : REng := reAlt a reEps

def reChar (p : Char → Bool) : REng := fun s =>
  match s with
  | [] => []
  | c :: r => if p c then [r] else []

def reLit (c : Char) : REng := reChar (fun x => x = c)

def reStr (t : List Char) : REng := fun s =>
  if t.isPrefixOf s then [s.drop t.length] else []

def reStrCI (t : List Char) : REng := fun s =>
  if ciPrefix t s then [s.drop t.length] else []

/-- Greedy `p{lo,hi}` over a character class (longest first). -/
def reRepCh (p : Char → Bool) (lo hi : Nat) : REng := fun s =>
  let k := min (s.takeWhile p).length hi
  if k < lo then []
  else (List.range (k - lo + 1)).map (fun i => s.drop (k - i))

/-- Greedy `p*` over a character class. -/
def reStarCh (p : Char → Bool) : REng := fun s =>
  let k := (s.takeWhile p).length
  (List.range (k + 1)).map (fun i => s.drop (k - i))

/-- Greedy `p+` over a character class. -/
def rePlusCh (p : Char → Bool) : REng := fun s =>
  let k := (s.takeWhile p).length
  if k = 0 then [] else (List.range k).map (fun i => s.drop (k - i))

/-- Length of the match the engine commits to at this position. -/
def reFirst (a : REng) (s : List Char) : Option Nat :=
  (a s).head?.map (fun r => s.length - r.length)

/-- `pattern.fullmatch(s)` as a Bool. -/
def reFull (a : REng) (s : List Char) : Bool := (a s).any List.isEmpty

/-- `pattern.match(s)` (anchored at the start) as a Bool. -/
def reMatches (a : REng) (s : List Char) : Bool := !(a s).isEmpty

/-- Engine-driven deleting `re.sub(pattern, "", ...)` matcher. -/
def mDelete (a : REng) : Matcher := fun _ s =>
  (reFirst a s).map (fun k => (k, ([] : List Char)))

/-!
## `textproc/cleaners.py`: compiled patterns
-/

/-- `_CTRL` (`[\x00-\x08\x0B\x0C\x0E-\x1F\x7F]`): same class as the tts
sanitizer. -/
def ctrlChar : Char → Bool := ttsCtrlChar

/-- `_ZW`: zero-width characters. -/
def zwChar (c : Char) : Bool :=
  c = '​' || c = '‌' || c = '‍' || c = '⁠' || c = '﻿'

/-- Matcher deleting one character of the class `p`. -/
def mDelChar (p : Char → Bool) : Matcher := fun _ s =>
  match s with
  | c :: _ => if p c then some (1, []) else none
  | [] => none

/-- Matcher for `_WHITESPACE_RE` = `\s+`, replaced by a single space. -/
def mWsRun : Matcher := fun _ s =>
  let run := s.takeWhile pyWs
  if run.length = 0 then none else some (run.length, [' '])

/-- `_WHITESPACE_RE.sub(" ", ...)`. -/
def wsCollapse (t : List Char) : List Char := reSub mWsRun t

/-- `normalize_whitespace` from `textproc/cleaners.py`. -/
def normalize_whitespace (t : List Char) : List Char := stripWs (wsCollapse t)

/-- `simple_tts_clean` from `textproc/cleaners.py`. -/
def simple_tts_clean (t : List Char) : List Char :=
  stripWs (wsCollapse (reSub (mDelChar ctrlChar) (reSub (mDelChar zwChar) t)))

/-- `_HYPHEN_CHARS`. -/
def hyphenChar (c : Char) : Bool :=
  c = '-' || c = '­' || ('‐' ≤ c && c ≤ '―') || c = '−' ||
  c = '⁃' || c = '־' || c = '᐀' || c = '᠆' ||
  c = '⸺' || c = '⸻' || c = '﹣' || c = '－' || c = '゠'

/-- Matcher for `_HYPHEN_LINEBREAK_RE` = `([A-Za-z])H\n([A-Za-z])` →
`\1\2`. -/
def mHyphLB : Matcher := fun _ s =>
  match s with
  | a :: h :: '\n' :: b :: _ =>
    if isAsciiLetter a && hyphenChar h && isAsciiLetter b then some (4, [a, b]) else none
  | _ => none

/-- Matcher for `_HYPHEN_MIDLINE_RE` = `(\b\w+)H\s+(\w+\b)` → `\1\2`. -/
def mHyphMid : Matcher := fun prev s =>
  match s with
  | [] => none
  | c :: _ =>
    if isWordChar c && wordBoundary prev c then
      let w1 := s.takeWhile isWordChar
      match s.drop w1.length with
      | h :: r2 =>
        if hyphenChar h then
          let ws := r2.takeWhile pyWs
          if ws.length = 0 then none
          else
            let w2 := (r2.drop ws.length).takeWhile isWordChar
            if w2.length = 0 then none
            else some (w1.length + 1 + ws.length + w2.length, w1 ++ w2)
        else none
      | [] => none
    else none

/-- The suffix alternatives of `_HYPHEN_SUFFIX_RE`, in source order. -/
def hyphSuffixes : List (List Char) :=
  ["ture", "tion", "ment", "ness", "ing", "ed", "er", "est", "ly", "ity",
   "ous", "ive", "ful", "less", "able", "ible"].map String.toList

/-- First suffix alternative matching here (case-insensitively) and
followed by `(\s|$)`; returns consumed length after the hyphen and the
replacement tail `\2\3`. -/
def findHyphSuffix (r : List Char) : List (List Char) → Option (Nat × List Char)
  | [] => none
  | sfx :: rest =>
    if ciPrefix sfx r then
      match (r.drop sfx.length).head? with
      | none => some (sfx.length, r.take sfx.length)
      | some c2 =>
        if pyWs c2 then some (sfx.length + 1, r.take sfx.length ++ [c2])
        else findHyphSuffix r rest
    else findHyphSuffix r rest

/-- Matcher for `_HYPHEN_SUFFIX_RE` = `([a-z])H(ture|tion|…)(\s|$)`
(ignorecase) → `\1\2\3`. -/
def mHyphSuffix : Matcher := fun _ s =>
  match s with
  | a :: h :: r =>
    if isAsciiLetter a && hyphenChar h then
      match findHyphSuffix r hyphSuffixes with
      | some (n, repl) => some (2 + n, a :: repl)
      | none => none
    else none
  | _ => none

/-- `fix_line_break_hyphenation` from `textproc/cleaners.py`. -/
def fix_line_break_hyphenation (t : List Char) : List Char :=
  if t.isEmpty then []
  else reSub mHyphSuffix (reSub mHyphMid (reSub mHyphLB t))

/-- `[ivxlcdm]` / `[divxlcdm]` (ignorecase): the roman-numeral letters. -/
def isRomanChar (c : Char) : Bool :=
  let l := lowerChar c
  l = 'i' || l = 'v' || l = 'x' || l = 'l' || l = 'c' || l = 'd' || l = 'm'

/-- `(?:\d+|[ivxlcdm]+)` of `_PAGE_CITATION_RE`. -/
def pageCiteNum : REng := reAlt (rePlusCh isAsciiDigit) (rePlusCh isRomanChar)

/-- The optional page range `(?:\s*[-–—]\s*(?:\d+|[ivxlcdm]+))?`. -/
def pageCiteRange : REng :=
  reSeq (reStarCh pyWs)
    (reSeq (reChar (fun c => c = '-' || c = '–' || c = '—'))
      (reSeq (reStarCh pyWs) pageCiteNum))

/-- `_PAGE_CITATION_RE` (verbose form flattened): `\(?\s*p{1,2}\.\s*
(?:\d+|[ivxlcdm]+)(?:\s*[-–—]\s*(?:\d+|[ivxlcdm]+))?\s*\)?(?:\s*[.,;:])?`,
ignorecase. -/
def pageCitation : REng :=
  reSeq (reOpt (reLit '('))
    (reSeq (reStarCh pyWs)
      (reSeq (reRepCh (fun c => c = 'p' || c = 'P') 1 2)
        (reSeq (reLit '.')
          (reSeq (reStarCh pyWs)
            (reSeq pageCiteNum
              (reSeq (reOpt pageCiteRange)
                (reSeq (reStarCh pyWs)
                  (reSeq (reOpt (reLit ')'))
                    (reOpt (reSeq (reStarCh pyWs)
                      (reChar (fun c => c = '.' || c = ',' || c = ';' || c = ':'))))))))))))

/-- `_PAGE_CITATION_RE.sub("", ...)`. -/
def pageCitationSub (t : List Char) : List Char := reSub (mDelete pageCitation) t

/-- `_URL_RE` = `https?://[^\s]+`. -/
def urlPat : REng :=
  reSeq (reStr "http".toList)
    (reSeq (reOpt (reLit 's'))
      (reSeq (reStr "://".toList) (rePlusCh (fun c => !pyWs c))))

/-- `_WWW_RE` = `www\.[^\s]+`. -/
def wwwPat : REng := reSeq (reStr "www.".toList) (rePlusCh (fun c => !pyWs c))

/-- `_EMAIL_RE` = `\S+@\S+\.\S+`. -/
def emailPat : REng :=
  reSeq (rePlusCh (fun c => !pyWs c))
    (reSeq (reLit '@')
      (reSeq (rePlusCh (fun c => !pyWs c))
        (reSeq (reLit '.') (rePlusCh (fun c => !pyWs c)))))

/-- `_CITATION_RE` = `\([A-Z][a-z]+(?:\s+et\s+al\.?)?,?\s+\d{4}\)`. -/
def citationParen : REng :=
  reSeq (reLit '(')
    (reSeq (reChar isAsciiUpper)
      (reSeq (rePlusCh isAsciiLower)
        (reSeq (reOpt (reSeq (rePlusCh pyWs)
            (reSeq (reStr "et".toList)
              (reSeq (rePlusCh pyWs)
                (reSeq (reStr "al".toList) (reOpt (reLit '.')))))))
          (reSeq (reOpt (reLit ','))
            (reSeq (rePlusCh pyWs)
              (reSeq (reRepCh isAsciiDigit 4 4) (reLit ')')))))))

/-- `remove_references` from `textproc/cleaners.py`. -/
def remove_references (t : List Char) : List Char :=
  if t.isEmpty then []
  else
    reSub (mDelete citationParen)
      (reSub (mDelete emailPat)
        (reSub (mDelete wwwPat) (reSub (mDelete urlPat) t)))

/-- Matcher for `\[\s*\d+\s*\]` → `""`. -/
def mBracketNum : Matcher := fun _ s =>
  match s with
  | '[' :: r =>
    let w1 := r.takeWhile pyWs
    let r1 := r.drop w1.length
    let d := r1.takeWhile isAsciiDigit
    if d.length = 0 then none
    else
      let w2 := (r1.drop d.length).takeWhile pyWs
      match ((r1.drop d.length).drop w2.length).head? with
      | some ']' => some (1 + w1.length + d.length + w2.length + 1, [])
      | _ => none
  | _ => none

/-- Matcher for `\(\s*\d+\s*\)` → `""`. -/
def mParenNum : Matcher := fun _ s =>
  match s with
  | '(' :: r =>
    let w1 := r.takeWhile pyWs
    let r1 := r.drop w1.length
    let d := r1.takeWhile isAsciiDigit
    if d.length = 0 then none
    else
      let w2 := (r1.drop d.length).takeWhile pyWs
      match ((r1.drop d.length).drop w2.length).head? with
      | some ')' => some (1 + w1.length + d.length + w2.length + 1, [])
      | _ => none
  | _ => none

/-- `[,.!?;:]` (and `[.!?,;:]`). -/
def sentPunct (c : Char) : Bool :=
  c = ',' || c = '.' || c = '!' || c = '?' || c = ';' || c = ':'

/-- Matcher for `([.!?,;:])\s*(\d{1,3})(?![\d-])\b` → `\1`: the whole digit
run must have length 1–3 (a longer run makes every greedy retreat fail on
the lookahead), the character after it must be neither `-` (lookahead) nor a
word character (`\b` after a digit). -/
def mPunctNum : Matcher := fun _ s =>
  match s with
  | p :: r =>
    if sentPunct p then
      let ws := r.takeWhile pyWs
      let r2 := r.drop ws.length
      let d := r2.takeWhile isAsciiDigit
      if d.length = 0 || 3 < d.length then none
      else
        match (r2.drop d.length).head? with
        | none => some (1 + ws.length + d.length, [p])
        | some c2 =>
          if c2 = '-' || isWordChar c2 then none
          else some (1 + ws.length + d.length, [p])
    else none
  | [] => none

/-- `[¹²³⁰-⁹†‡]` (superscript digits and daggers). -/
def supDaggerChar (c : Char) : Bool :=
  c = '¹' || c = '²' || c = '³' || ('⁰' ≤ c && c ≤ '⁹') || c = '†' || c = '‡'

/-- Matcher for `[¹²³⁰-⁹†‡]+` → `""`. -/
def mSupDagger : Matcher := fun _ s =>
  let run := s.takeWhile supDaggerChar
  if run.length = 0 then none else some (run.length, [])

/-- `_INLINE_FOOTNOTE_PATTERNS` applied in source order. -/
def inline_footnote_sub (t : List Char) : List Char :=
  reSub mSupDagger (reSub mPunctNum (reSub mParenNum (reSub mBracketNum t)))

/-- Matcher for `_SPACE_BEFORE_PUNCT_RE` = `\s+([,.!?;:])` → `\1`. -/
def mSpaceBeforePunct : Matcher := fun _ s =>
  let ws := s.takeWhile pyWs
  if ws.length = 0 then none
  else
    match (s.drop ws.length).head? with
    | some p => if sentPunct p then some (ws.length + 1, [p]) else none
    | none => none

/-- Matcher for `_PUNCT_NEEDS_SPACE_RE` = `([,.!?;:])([A-Za-z0-9])` →
`\1 \2`. -/
def mPunctNeedsSpace : Matcher := fun _ s =>
  match s with
  | p :: c2 :: _ =>
    if sentPunct p && (isAsciiLetter c2 || isAsciiDigit c2) then
      some (2, [p, ' ', c2])
    else none
  | _ => none

/-- Matcher for `_MULTI_PUNCT_RE` = `([,.!?;:])[,.!?;:]+` → `\1`. -/
def mMultiPunct : Matcher := fun _ s =>
  match s with
  | p :: r =>
    if sentPunct p then
      let run := r.takeWhile sentPunct
      if run.length = 0 then none else some (1 + run.length, [p])
    else none
  | [] => none

/-- `fix_punctuation_spacing` from `textproc/cleaners.py`. -/
def fix_punctuation_spacing (t : List Char) : List Char :=
  if t.isEmpty then []
  else reSub mMultiPunct (reSub mPunctNeedsSpace (reSub mSpaceBeforePunct t))

/-- Matcher for `_+` → `" "` (the TXT path's underscore removal). -/
def mUnderscoreRun : Matcher := fun _ s =>
  let run := s.takeWhile (fun c => c = '_')
  if run.length = 0 then none else some (run.length, [' '])

/-- Matcher for `\bforeign-born\b` (ignorecase) → `"foreign born"`. -/
def mForeignBorn : Matcher := fun prev s =>
  match s with
  | c :: _ =>
    if wordBoundary prev c && ciPrefix "foreign-born".toList s then
      match (s.drop 12).head? with
      | none => some (12, "foreign born".toList)
      | some c2 => if isWordChar c2 then none else some (12, "foreign born".toList)
    else none
  | [] => none

/-- Matcher for `\n{3,}` → `"\n\n"`. -/
def mNl3 : Matcher := fun _ s =>
  let run := s.takeWhile (fun c => c = '\n')
  if run.length < 3 then none else some (run.length, ['\n', '\n'])

/-!
## `textproc/cleaners.py`: line-based passes
-/

/-- `_PAGE_NUMBER_RE` = `^\d+$` as a full-line test. -/
def isAllDigits (l : List Char) : Bool := !l.isEmpty && l.all isAsciiDigit

/-- `_ROMAN_PAGE_RE` = `^[divxlcdm]+$` (ignorecase) as a full-line test. -/
def isAllRoman (l : List Char) : Bool := !l.isEmpty && l.all isRomanChar

/-- `_TXT_PAGE_NUM_RE` = `^\s*(\d{1,4}|[ivxlcdm]{1,6})\s*$` (ignorecase):
after trimming whitespace the core is 1–4 digits or 1–6 roman letters. -/
def isTxtPageNum (s : List Char) : Bool :=
  let t := stripWs s
  (1 ≤ t.length && t.length ≤ 4 && t.all isAsciiDigit) ||
  (1 ≤ t.length && t.length ≤ 6 && t.all isRomanChar)

/-- `_TXT_SLASH_HDR_RE` = `^\s*(?:\d{1,4}\s*/\s*.+|.+\s*/\s*\d{1,4})\s*$`. -/
def slashHdrPat : REng :=
  reSeq (reStarCh pyWs)
    (reSeq
      (reAlt
        (reSeq (reRepCh isAsciiDigit 1 4)
          (reSeq (reStarCh pyWs)
            (reSeq (reLit '/')
              (reSeq (reStarCh pyWs) (rePlusCh (fun c => c ≠ '\n'))))))
        (reSeq (rePlusCh (fun c => c ≠ '\n'))
          (reSeq (reStarCh pyWs)
            (reSeq (reLit '/')
              (reSeq (reStarCh pyWs) (reRepCh isAsciiDigit 1 4))))))
      (reStarCh pyWs))

def isSlashHdr (s : List Char) : Bool := reFull slashHdrPat s

/-- `_FOOTNOTE_START_RE` / `_TXT_FOOTNOTE_LINE_RE` =
`^\s*(?:\d{1,3}[.)]|[*†‡])\s+` as a prefix test. -/
def isFootnoteStart (s : List Char) : Bool :=
  let r := s.dropWhile pyWs
  let d := r.takeWhile isAsciiDigit
  if 1 ≤ d.length && d.length ≤ 3 then
    match r.drop d.length with
    | c :: rest => (c = '.' || c = ')') && !((rest.takeWhile pyWs).isEmpty)
    | [] => false
  else
    match r with
    | c :: rest => (c = '*' || c = '†' || c = '‡') && !((rest.takeWhile pyWs).isEmpty)
    | [] => false

/-- The 16 `_CITATION_LINE_PATTERNS` (all `re.I`, all prefix-anchored), in
source order. -/
def citationLinePats : List REng :=
  [ reSeq (reStrCI "op".toList) (reSeq (reOpt (reLit '.'))
      (reSeq (reStarCh pyWs) (reSeq (reStrCI "cit".toList) (reOpt (reLit '.'))))),
    reSeq (reStrCI "ibid".toList) (reOpt (reLit '.')),
    reSeq (reStrCI "loc".toList) (reSeq (reOpt (reLit '.'))
      (reSeq (reStarCh pyWs) (reSeq (reStrCI "cit".toList) (reOpt (reLit '.'))))),
    reSeq (reStrCI "cf".toList) (reOpt (reLit '.')),
    reSeq (reStrCI "et".toList) (reSeq (rePlusCh pyWs)
      (reSeq (reStrCI "al".toList) (reOpt (reLit '.')))),
    reSeq (reStrCI "supra".toList) (reOpt (reLit '.')),
    reSeq (reStrCI "infra".toList) (reOpt (reLit '.')),
    reSeq (reStrCI "passim".toList) (reOpt (reLit '.')),
    reSeq (reStrCI "ff".toList) (reOpt (reLit '.')),
    reSeq (reStrCI "see".toList) (reSeq (rePlusCh pyWs)
      (reOpt (reSeq (reStrCI "also".toList) (rePlusCh pyWs)))),
    reSeq (reStrCI "nota".toList) (reSeq (rePlusCh pyWs)
      (reSeq (reStrCI "bene".toList) (reOpt (reLit '.')))),
    reSeq (reStrCI "n".toList) (reSeq (reOpt (reLit '.'))
      (reSeq (reStrCI "b".toList) (reOpt (reLit '.')))),
    reSeq (reStrCI "vide".toList) (reOpt (reLit '.')),
    reSeq (reStrCI "viz".toList) (reOpt (reLit '.')),
    reSeq (reStrCI "i".toList) (reSeq (reOpt (reLit '.'))
      (reSeq (reStrCI "e".toList) (reOpt (reLit '.')))),
    reSeq (reStrCI "e".toList) (reSeq (reOpt (reLit '.'))
      (reSeq (reStrCI "g".toList) (reOpt (reLit '.')))) ]

/-- `remove_citation_lines` from `textproc/cleaners.py`. -/
def remove_citation_lines (t : List Char) : List Char :=
  if t.isEmpty then []
  else
    joinWith ['\n']
      ((splitOnChar '\n' t).filter (fun ln =>
        let s := stripWs ln
        s.isEmpty || !(citationLinePats.any (fun p => reMatches p s))))

/-- `\b(Chapter|Page|Years)\b` alternatives. -/
def chapterToks : List (List Char) := ["Chapter", "Page", "Years"].map String.toList

/-- The header test of `strip_firstline_headers` applied to the stripped
first non-blank line of a page. -/
def headerFirstLineCond (first : List Char) : Bool :=
  (isAllRoman first && (pySplit first).length = 1) ||
  (hasTokenCI chapterToks first && first.any isAsciiDigit) ||
  ((pySplit first).length < 10 && !(endsWithOneOf ['.', '!', '?'] first))

/-- `lines.pop(first_idx)` where `first_idx` is the first non-blank line,
applied when the header test fires. -/
def dropHeaderLine : List (List Char) → List (List Char)
  | [] => []
  | ln :: rest =>
    if (stripWs ln).isEmpty then ln :: dropHeaderLine rest
    else if headerFirstLineCond (stripWs ln) then rest
    else ln :: rest

/-- `strip_firstline_headers` from `textproc/cleaners.py` (`PAGE_BREAK` is
the form feed `\x0C`; pages are re-joined with it only when it occurred in
the input). -/
def strip_firstline_headers (t : List Char) : List Char :=
  if t.isEmpty then []
  else
    let pages := if t.contains '\x0c' then splitOnChar '\x0c' t else [t]
    let cleaned := pages.map (fun page =>
      joinWith ['\n'] (dropHeaderLine (splitOnChar '\n' (stripWs page))))
    if t.contains '\x0c' then joinWith ['\x0c'] cleaned else joinWith ['\n'] cleaned

/-- Bottom scan of `remove_bottom_page_numbers`: at the last non-blank line,
pop it when it is all digits, then stop. -/
def dropBottomPageNumRev : List (List Char) → List (List Char)
  | [] => []
  | ln :: rest =>
    if (stripWs ln).isEmpty then ln :: dropBottomPageNumRev rest
    else if isAllDigits (stripWs ln) then rest
    else ln :: rest

/-- `remove_bottom_page_numbers` from `textproc/cleaners.py`. -/
def remove_bottom_page_numbers (t : List Char) : List Char :=
  if t.isEmpty then []
  else
    let pages := if t.contains '\x0c' then splitOnChar '\x0c' t else [t]
    let cleaned := pages.map (fun page =>
      joinWith ['\n'] ((dropBottomPageNumRev (splitOnChar '\n' (stripWs page)).reverse).reverse))
    if t.contains '\x0c' then joinWith ['\x0c'] cleaned else joinWith ['\n'] cleaned

/-- The cut index of `remove_footnote_markers`'s bottom trim: scan `i` from
`len-1` down to `max(-1, len-15)` exclusive, cutting at the first
`_FOOTNOTE_START_RE` line whose zone condition
(`len - i <= 14 or i >= int(0.75 * len)`) holds; `int(0.75*n)` is the exact
dyadic `3n/4`. -/
def footnoteCutIdx (lines : List (List Char)) : Nat :=
  let n := lines.length
  let idxs := (List.range (min 14 n)).map (fun o => n - 1 - o)
  match idxs.find? (fun i =>
      match lines.get? i with
      | some ln => isFootnoteStart ln && (n - i ≤ 14 || (3 * n) / 4 ≤ i)
      | none => false) with
  | some i => i
  | none => n

/-- `remove_footnote_markers` from `textproc/cleaners.py`. -/
def remove_footnote_markers (t : List Char) : List Char :=
  if t.isEmpty then []
  else
    let t1 := pageCitationSub (inline_footnote_sub t)
    let pages := if t1.contains '\x0c' then splitOnChar '\x0c' t1 else [t1]
    let cleaned := pages.map (fun page =>
      let lines := pySplitlines page
      rstripWs (joinWith ['\n'] (lines.take (footnoteCutIdx lines))))
    if t1.contains '\x0c' then joinWith ['\x0c'] cleaned else joinWith ['\n'] cleaned

/-- `join_paragraphs_smart` from `textproc/cleaners.py` (PDF/page based). -/
def join_paragraphs_smart (t : List Char) : List Char :=
  if t.isEmpty then []
  else
    let t1 := replaceSub ['\x0c'] "\n\n".toList t
    let paras := (splitOnSub "\n\n".toList t1).map stripWs
    joinWith "\n\n".toList
      ((paras.filter (fun p => !p.isEmpty)).map
        (fun p => wsCollapse (replaceSub ['\n'] [' '] p)))

/-- Matcher for `\s*\n\s*` → `" "`: a whitespace run containing a newline
(greedy retreat always re-extends over the whole run). -/
def mWsNlRun : Matcher := fun _ s =>
  let run := s.takeWhile pyWs
  if run.contains '\n' then some (run.length, [' ']) else none

/-- `join_paragraphs_smart_txt` from `textproc/cleaners.py` (blank-line
paragraph breaks preserved as empty parts). -/
def join_paragraphs_smart_txt (t : List Char) : List Char :=
  if t.isEmpty then []
  else
    let paras := (splitOnSub "\n\n".toList t).map stripWs
    joinWith "\n\n".toList
      (paras.map (fun p =>
        if p.isEmpty then []
        else stripWs (wsCollapse (reSub mWsNlRun p))))

/-- Header-candidate shape of `_detect_repeated_headers`. -/
def headerCandShape (s : List Char) : Bool :=
  !s.isEmpty && s.length ≤ 80 &&
  !(endsWithOneOf ['.', '!', '?', ':', ';'] s) && !(isTxtPageNum s)

/-- The candidate multiset of `_detect_repeated_headers`. -/
def headerCands (lines : List (List Char)) : List (List Char) :=
  (lines.map stripWs).filter headerCandShape

/-- `s in headers` where `headers = {s | freq(s) >= 3}` (`min_hits = 3`). -/
def isRepeatedHeader (cands : List (List Char)) (s : List Char) : Bool :=
  3 ≤ cands.count s

/-- The per-line filter loop of `clean_txt_headers_and_footnotes`.
`prevBlank` tells whether the previous line of the original list was blank
(true at the first line, matching `i - 1 < 0`). -/
def cleanTxtGo (cands : List (List Char)) : Bool → List (List Char) → List (List Char)
  | _, [] => []
  | prevBlank, ln :: rest =>
    let s := stripWs ln
    if s.isEmpty then ln :: cleanTxtGo cands true rest
    else
      let nextBlank := match rest with
        | [] => true
        | nx :: _ => (stripWs nx).isEmpty
      let keptRest := cleanTxtGo cands false rest
      if isRepeatedHeader cands s then keptRest
      else if isTxtPageNum s && (prevBlank || nextBlank) then keptRest
      else if isSlashHdr s then keptRest
      else if isFootnoteStart s && (prevBlank || (pySplit s).length ≤ 14) then keptRest
      else ln :: keptRest

/-- `clean_txt_headers_and_footnotes` from `textproc/cleaners.py`. -/
def clean_txt_headers_and_footnotes (t : List Char) : List Char :=
  if t.isEmpty then []
  else
    let t1 := replaceSub ['\r'] ['\n'] (replaceSub "\r\n".toList "\n".toList t)
    let t2 := pageCitationSub t1
    let lines := splitOnChar '\n' t2
    let cands := headerCands lines
    let out := joinWith ['\n'] (cleanTxtGo cands true lines)
    stripWs (reSub mNl3 (inline_footnote_sub out))

/-!
## `clean_document`: the TXT/PDF router with the under-yield fallback
-/

/-- The TXT branch of `clean_document` before the fallback check, applied
to the already `simple_tts_clean`ed text. -/
def txt_pipeline (t : List Char) : List Char :=
  normalize_whitespace
    (fix_punctuation_spacing
      (reSub mForeignBorn
        (reSub mUnderscoreRun
          (join_paragraphs_smart_txt
            (clean_txt_headers_and_footnotes
              (fix_line_break_hyphenation (pageCitationSub t)))))))

/-- The PDF branch of `clean_document` before the fallback check. -/
def pdf_pipeline (remove_headers remove_footnotes : Bool) (t : List Char) : List Char :=
  let t1 := if remove_headers then remove_bottom_page_numbers (strip_firstline_headers t) else t
  let t2 := fix_line_break_hyphenation t1
  let t3 :=
    if remove_footnotes then
      remove_references (remove_citation_lines (remove_footnote_markers t2))
    else pageCitationSub t2
  normalize_whitespace (fix_punctuation_spacing (join_paragraphs_smart t3))

/-- `kind and kind.lower() == "txt"`. -/
def isTxtKind (kind : List Char) : Bool :=
  !kind.isEmpty && lowerList kind == "txt".toList

/-- `max(fallback_abs_min, int(fallback_floor_ratio * max(1, base)))`
(`int` truncation = floor on this non-negative product). -/
def floorOf (ratio : ℚ) (absMin : Nat) (base : Nat) : Nat :=
  max absMin (ratio * ((max 1 base : Nat) : ℚ)).floor.toNat

/-- The pre-fallback result of `clean_document` on non-empty input. -/
def pre_result (text kind : List Char) (remove_headers remove_footnotes : Bool) : List Char :=
  if isTxtKind kind then txt_pipeline (simple_tts_clean text)
  else pdf_pipeline remove_headers remove_footnotes (simple_tts_clean text)

/-- The length base of the fallback floor: the TXT branch measures
`raw_len = len(text)` after `simple_tts_clean`, the PDF branch
`len(original)`. -/
def floor_base (text kind : List Char) : Nat :=
  if isTxtKind kind then (simple_tts_clean text).length else text.length

/-- `clean_document` from `textproc/cleaners.py` (defaults
`fallback_floor_ratio = 0.001`, `fallback_abs_min = 50`). -/
def clean_document (text kind : List Char)
    (remove_headers remove_footnotes allow_fallback : Bool)
    (ratio : ℚ) (absMin : Nat) : List Char :=
  if text.isEmpty then []
  else
    let r := pre_result text kind remove_headers remove_footnotes
    if allow_fallback && (stripWs r).length < floorOf ratio absMin (floor_base text kind) then
      normalize_whitespace text
    else r

/-!
## Specification-side predicates
-/

/-- Worker for `canRecompose`; fuel dominates the number of steps
(each step shortens the text or the chunk list). -/
def canRecomposeF : Nat → List Char → List (List Char) → Bool
  | 0, _, _ => false
  | _ + 1, t, [] => t.all pyWs
  | fuel + 1, t, c :: cs =>
    (c.isPrefixOf t && canRecomposeF fuel (t.drop c.length) cs) ||
    (match t with
     | [] => false
     | x :: r => pyWs x && canRecomposeF fuel r (c :: cs))

/-- "Concatenating all chunks in document order and removing only the
whitespace seams between chunks reproduces the input text exactly":
the chunks occur verbatim in the text, in order, separated (and flanked)
only by whitespace. -/
def canRecompose (t : List Char) (chunks : List (List Char)) : Bool :=
  canRecomposeF (t.length + chunks.length + 1) t chunks

/-- Does the text contain a `_CTRL`-class control character? -/
def hasCtrl (l : List Char) : Bool := l.any ctrlChar

/-- Does the text contain two consecutive newline characters? -/
def hasDoubleNl : List Char → Bool
  | '\n' :: '\n' :: _ => true
  | _ :: r => hasDoubleNl r
  | [] => false

/-- The fixed characters the cleaning substitutions may insert. -/
def safeChars : List Char := ' ' :: '\n' :: "foreign born".toList

/-- A matcher whose replacements only contain characters of the matched text
or fixed safe characters. -/
def SafeMatcher (m : Matcher) : Prop :=
  ∀ (prev : Option Char) (t : List Char) (k : Nat) (repl : List Char),
    m prev t = some (k, repl) → ∀ c ∈ repl, c ∈ t ∨ c ∈ safeChars

/-- Every character of `out` comes from `t` or from the fixed safe set. -/
def SafeOver (t out : List Char) : Prop :=
  ∀ c ∈ out, c ∈ t ∨ c ∈ safeChars

/-!
# Theorems
-/

/-- C9: the sentence segmenter applied to the exact input
`"Dr. Smith went home. He was tired."` yields exactly the two sentences
`"Dr. Smith went home."` and `"He was tired."` — the period of `"Dr."` is
protected and not treated as a sentence boundary, while the period after
`"home."` is. -/
theorem dr_smith_segments_into_two_sentences :
    split_into_sentences "Dr. Smith went home. He was tired.".toList =
      ["Dr. Smith went home.".toList, "He was tired.".toList] ∧
    (split_into_sentences "Dr. Smith went home. He was tired.".toList).length = 2 := by
  constructor
  · decide
  · decide

/-- C8 (code bug): `coalesce_chunks` joins buffered chunks with the
two-character separator `"\n\n"` but accounts only `+1` per join in `size`,
so its output can exceed `hard_cap`, contradicting its own docstring
("without exceeding hard_cap") and its own accounting comment
("+1 for join newline/space").  On chunks `["a","a","a"]` with
`target = 5`, `hard_cap = 6` the tracked size is 5 but the emitted chunk
`"a\n\na\n\na"` has length 7 > 6. -/
theorem coalesce_chunks_exceeds_hard_cap :
    coalesce_chunks [['a'], ['a'], ['a']] 5 6 = ["a\n\na\n\na".toList] ∧
    ∃ c ∈ coalesce_chunks [['a'], ['a'], ['a']] 5 6, 6 < c.length := by
  constructor
  · decide
  · decide

/-- C10: the extraction scorer never returns a negative value: every early
return is a non-negative constant and the final expression is clamped by
`max(0, score)`. -/
theorem score_text_nonneg (s : List Char) : 0 ≤ score_text s := by
  unfold score_text
  split_ifs
  · exact le_refl 0
  · dsimp only
    split_ifs <;> norm_num [le_max_left]

/-- C3 counterexample: two synthesis jobs with identical sanitized text
(`"Hello"`) and identical voice configuration but different positions in
the chunk sequence (`chunk_idx` 0 and 1) receive different cached-artifact
keys, because `synth_chunk` prefixes the key with `f"{chunk_idx:05d}_"`.
The two keys differ in their index prefix for every hash function, so the
concrete stand-in hash `fun _ => []` is immaterial. -/
theorem synth_output_key_depends_on_position :
    synth_output_key (fun _ => []) ⟨"en-US-AndrewNeural".toList, 0, 0⟩ 0 "Hello".toList ≠
      synth_output_key (fun _ => []) ⟨"en-US-AndrewNeural".toList, 0, 0⟩ 1 "Hello".toList := by
  decide

/-- C3 amended: the cached-artifact key is a pure function of the job's
sanitized text and its chunk index — and of nothing else: two jobs with the
same sanitized text and the same chunk index map to the same key for
arbitrary (even different) voice configurations.  The voice configuration
does not enter the key at all, and the chunk index does. -/
theorem synth_output_key_pure_in_text_and_index
    (sha256hex : List Char → List Char) (cfg₁ cfg₂ : TTSConfig) (idx : Nat)
    (t₁ t₂ : List Char) (h : sanitize t₁ = sanitize t₂) :
    synth_output_key sha256hex cfg₁ idx t₁ = synth_output_key sha256hex cfg₂ idx t₂ := by
  unfold synth_output_key
  rw [h]

/-- Witness for the C3 amended theorem at concrete inputs: the texts
`"a  b"` and `"a b"` sanitize identically, and the keys coincide even for
two different voice configurations. -/
theorem synth_output_key_pure_witness :
    sanitize "a  b".toList = sanitize "a b".toList ∧
    synth_output_key (fun _ => []) ⟨"en-US-AndrewNeural".toList, 0, 0⟩ 2 "a  b".toList =
      synth_output_key (fun _ => []) ⟨"en-US-JennyNeural".toList, 10, -20⟩ 2 "a b".toList :=
  ⟨by decide,
   synth_output_key_pure_in_text_and_index (fun _ => []) _ _ 2 _ _ (by decide)⟩

/-- C5 counterexample: when pdfplumber yields non-empty text,
`read_pdf_file` returns it without consulting the other backend or the
scorer.  Here pdfplumber yields 60 `z`s (extraction score 0.1 — a jammed
single word) while pypdf yields natural text with a strictly higher score;
the spec's selection rule would retain the pypdf candidate, the code
returns the pdfplumber text. -/
theorem read_pdf_file_ignores_scores :
    read_pdf_file ([List.replicate 60 'z'], true)
        (["the cat sat on the mat and the dog ran off to the park today".toList], true) =
      List.replicate 60 'z' ∧
    spec_best_native_candidate
        [some (List.replicate 60 'z'),
         some "the cat sat on the mat and the dog ran off to the park today".toList] =
      some "the cat sat on the mat and the dog ran off to the park today".toList ∧
    score_text (List.replicate 60 'z') <
      score_text "the cat sat on the mat and the dog ran off to the park today".toList ∧
    List.replicate 60 'z' ≠
      "the cat sat on the mat and the dog ran off to the park today".toList := by
  refine ⟨by decide, by with_unfolding_all decide, by with_unfolding_all decide, by decide⟩

/-- C5 amended: PDF extraction tries the backends in a fixed priority
order — pdfplumber first, returning its joined text whenever that is
non-empty after stripping; only when pdfplumber throws or yields empty text
does pypdf run, its pages appended to whatever pdfplumber left in
`text_parts`; a pypdf failure yields the empty string.  The extraction
scorer plays no role in the selection. -/
theorem read_pdf_file_priority (pl pp : List (List Char) × Bool) :
    (pl.2 = true → stripWs (joinWith ['\n'] pl.1) ≠ [] →
      read_pdf_file pl pp = stripWs (joinWith ['\n'] pl.1)) ∧
    ((pl.2 = false ∨ stripWs (joinWith ['\n'] pl.1) = []) →
      read_pdf_file pl pp =
        (if pp.2 then stripWs (joinWith ['\n'] (pl.1 ++ pp.1)) else [])) := by
  unfold read_pdf_file
  constructor
  · intro h2 hne
    rw [h2]
    simp only [if_true]
    rw [if_pos]
    simpa using hne
  · intro h
    rcases h with h | h
    · rw [h]
      simp
    · rcases hpl : pl.2 with _ | _
      · simp
      · simp [h]

/-- Witness for the C5 amended theorem: with pdfplumber succeeding on the
page `"hi"`, the result is `"hi"` whatever pypdf would have produced. -/
theorem read_pdf_file_priority_witness :
    read_pdf_file (["hi".toList], true) (["yo".toList], true) = "hi".toList :=
  (read_pdf_file_priority (["hi".toList], true) (["yo".toList], true)).1 rfl (by decide)

/-- C6: when the text surviving normalization is shorter than the fallback
floor (`max(abs_min, floor(ratio * max(1, base)))`, the base being the
lightly-sanitized length on the TXT path and the raw length on the PDF
path), `clean_document` returns the minimally-normalized original
(`normalize_whitespace(original)`) instead of the near-empty result; the
recovery is a value-level fallback, not an error (`clean_document` is a
total function into strings). -/
theorem clean_document_under_yield_fallback (text kind : List Char)
    (rh rf : Bool) (ratio : ℚ) (amin : Nat)
    (hne : text ≠ [])
    (hsmall : (stripWs (pre_result text kind rh rf)).length <
      floorOf ratio amin (floor_base text kind)) :
    clean_document text kind rh rf true ratio amin = normalize_whitespace text := by
  unfold clean_document
  rw [if_neg (by simpa using hne)]
  simp only [Bool.true_and]
  rw [if_pos (by exact decide_eq_true hsmall)]

/-- Witness for C6: on the input `"\x01"` (kind `txt`) everything is
normalized away, the floor is 50, and the fallback returns
`normalize_whitespace("\x01")`. -/
theorem clean_document_under_yield_fallback_witness :
    ("\x01".toList ≠ [] ∧
      (stripWs (pre_result "\x01".toList "txt".toList true true)).length <
        floorOf (1/1000 : ℚ) 50 (floor_base "\x01".toList "txt".toList)) ∧
    clean_document "\x01".toList "txt".toList true true true (1/1000 : ℚ) 50 =
      normalize_whitespace "\x01".toList :=
  ⟨⟨by decide, by with_unfolding_all decide⟩,
   clean_document_under_yield_fallback _ _ true true _ 50 (by decide)
     (by with_unfolding_all decide)⟩

/-- The Generate-Audio loop is the outcome-filter of the attempted
fragments: synthesis results never alter the traversal. -/
theorem genLoop_eq_filter (hmem : Nat → Bool) (ok : List Char → Bool) :
    ∀ (chunks : List (List Char)) (i : Nat),
      genLoop hmem ok i chunks =
        ((attempted_fragments hmem i chunks).filter ok,
         (attempted_fragments hmem i chunks).filter (fun p => !ok p)) := by
  intro chunks
  induction chunks with
  | nil => intro i; rfl
  | cons ch rest ih =>
    intro i
    simp only [genLoop, attempted_fragments]
    split
    · exact ih (i + 1)
    · split
      · rfl
      · simp [ih (i + 1), List.filter_append]

/-- C7: during a synthesis run, every attempted fragment (sanitized,
hard-capped sub-part) whose `synthesize_with_retry` call fails after the
fixed retry ceiling (3 tries) lands — with its text preserved verbatim — in
the skipped list, and exactly the succeeding fragments form, in order, the
part list that is concatenated into the final audio; the whole run raises
(`Except.error`) precisely when zero fragments succeed. -/
theorem generate_audio_skips_failed_fragments (hmem : Nat → Bool)
    (memOk attemptOk : List Char → Nat → Bool) (chunks : List (List Char)) :
    generate_audio hmem memOk attemptOk chunks =
      (if ((attempted_fragments hmem 1 chunks).filter
            (fun p => synthesize_with_retry (memOk p) (attemptOk p) 3)).isEmpty
       then Except.error ()
       else Except.ok
         ((attempted_fragments hmem 1 chunks).filter
            (fun p => synthesize_with_retry (memOk p) (attemptOk p) 3),
          (attempted_fragments hmem 1 chunks).filter
            (fun p => !synthesize_with_retry (memOk p) (attemptOk p) 3))) := by
  unfold generate_audio
  dsimp only
  rw [genLoop_eq_filter]

/-- Invariant of the word loop of `smart_split_into_chunks`: when every
incoming word satisfies `R`, every emitted chunk either fits in `L` or
satisfies `R`, and the running buffer is empty, fits, or satisfies `R`. -/
theorem chunkWords_spec (L : Nat) (R : List Char → Prop) :
    ∀ (ws : List (List Char)) (cur2 : List Char) (chunks : List (List Char)),
      (∀ w ∈ ws, R w) →
      (∀ d ∈ chunks, d.length ≤ L ∨ R d) →
      (cur2 = [] ∨ cur2.length ≤ L ∨ R cur2) →
      (∀ d ∈ (chunkWords L ws cur2 chunks).1, d.length ≤ L ∨ R d) ∧
      ((chunkWords L ws cur2 chunks).2 = [] ∨ (chunkWords L ws cur2 chunks).2.length ≤ L ∨
        R (chunkWords L ws cur2 chunks).2) := by
  intro ws
  induction ws with
  | nil => exact fun cur2 chunks _ hc hq => ⟨hc, hq⟩
  | cons w rest ih =>
    intro cur2 chunks hw hc hq
    have hwrest : ∀ x ∈ rest, R x := fun x hx => hw x (List.mem_cons_of_mem _ hx)
    have hwhead : R w := hw w (List.mem_cons_self _ _)
    by_cases hemp : cur2.isEmpty
    · have hnil : cur2 = [] := List.isEmpty_iff.mp hemp
      subst hnil
      rw [show chunkWords L (w :: rest) [] chunks =
          if w.length ≤ L then chunkWords L rest w chunks
          else chunkWords L rest w (chunks ++ [[]]) from by
        simp [chunkWords]]
      by_cases hfit : w.length ≤ L
      · rw [if_pos hfit]
        exact ih w chunks hwrest hc (Or.inr (Or.inl hfit))
      · rw [if_neg hfit]
        refine ih w _ hwrest ?_ (Or.inr (Or.inr hwhead))
        intro d hd
        rcases List.mem_append.mp hd with hd | hd
        · exact hc d hd
        · simp only [List.mem_singleton] at hd
          subst hd
          exact Or.inl (by simp)
    · have hfalse : cur2.isEmpty = false := by simpa using hemp
      have hne : cur2 ≠ [] := by simpa [List.isEmpty_iff] using hemp
      rw [show chunkWords L (w :: rest) cur2 chunks =
          if cur2.length + w.length + 1 ≤ L then chunkWords L rest (cur2 ++ ' ' :: w) chunks
          else chunkWords L rest w (chunks ++ [cur2]) from by
        simp [chunkWords, hfalse]]
      by_cases hfit : cur2.length + w.length + 1 ≤ L
      · rw [if_pos hfit]
        refine ih _ chunks hwrest hc (Or.inr (Or.inl ?_))
        simp only [List.length_append, List.length_cons]
        omega
      · rw [if_neg hfit]
        refine ih w _ hwrest ?_ (Or.inr (Or.inr hwhead))
        intro d hd
        rcases List.mem_append.mp hd with hd | hd
        · exact hc d hd
        · simp only [List.mem_singleton] at hd
          subst hd
          rcases hq with hq | hq
          · exact absurd hq hne
          · exact hq

/-- Invariant of the sentence loop of `smart_split_into_chunks`. -/
theorem chunkGo_spec (L : Nat) (R : List Char → Prop) :
    ∀ (sents : List (List Char)) (cur : List Char) (chunks : List (List Char)),
      (∀ s ∈ sents, L < s.length → ∀ w ∈ pySplit s, R w) →
      (∀ d ∈ chunks, d.length ≤ L ∨ R d) →
      (cur = [] ∨ cur.length ≤ L ∨ R cur) →
      ∀ d ∈ chunkGo L sents cur chunks, d.length ≤ L ∨ R d := by
  intro sents
  induction sents with
  | nil =>
    intro cur chunks _ hc hq d hd
    by_cases hemp : cur.isEmpty
    · rw [show chunkGo L [] cur chunks = chunks from by simp [chunkGo, hemp]] at hd
      exact hc d hd
    · have hne : cur ≠ [] := by simpa [List.isEmpty_iff] using hemp
      have hfalse : cur.isEmpty = false := by simpa using hemp
      rw [show chunkGo L [] cur chunks = chunks ++ [cur] from by
        simp [chunkGo, hfalse]] at hd
      rcases List.mem_append.mp hd with hd | hd
      · exact hc d hd
      · simp only [List.mem_singleton] at hd
        subst hd
        rcases hq with hq | hq
        · exact absurd hq hne
        · exact hq
  | cons s rest ih =>
    intro cur chunks hs hc hq d hd
    have hsrest : ∀ x ∈ rest, L < x.length → ∀ w ∈ pySplit x, R w :=
      fun x hx => hs x (List.mem_cons_of_mem _ hx)
    by_cases hsemp : s.isEmpty
    · rw [show chunkGo L (s :: rest) cur chunks = chunkGo L rest cur chunks from by
        simp [chunkGo, hsemp]] at hd
      exact ih cur chunks hsrest hc hq d hd
    · have hsfalse : s.isEmpty = false := by simpa using hsemp
      have hchunks1 : ∀ x ∈ (if cur.isEmpty then chunks else chunks ++ [cur]),
          x.length ≤ L ∨ R x := by
        intro x hx
        by_cases hemp : cur.isEmpty
        · rw [if_pos hemp] at hx
          exact hc x hx
        · rw [if_neg hemp] at hx
          have hne : cur ≠ [] := by simpa [List.isEmpty_iff] using hemp
          rcases List.mem_append.mp hx with hx | hx
          · exact hc x hx
          · simp only [List.mem_singleton] at hx
            subst hx
            rcases hq with hq | hq
            · exact absurd hq hne
            · exact hq
      by_cases hemp : cur.isEmpty
      · have hnil : cur = [] := List.isEmpty_iff.mp hemp
        subst hnil
        rw [show chunkGo L (s :: rest) [] chunks =
            if s.length ≤ L then chunkGo L rest s chunks
            else
              if L < s.length then
                chunkGo L rest (chunkWords L (pySplit s) [] chunks).2
                  (chunkWords L (pySplit s) [] chunks).1
              else chunkGo L rest s chunks from by
          simp [chunkGo, hsfalse]] at hd
        by_cases hfit : s.length ≤ L
        · rw [if_pos hfit] at hd
          exact ih s chunks hsrest hc (Or.inr (Or.inl hfit)) d hd
        · rw [if_neg hfit, if_pos (by omega)] at hd
          have hlong : L < s.length := by omega
          have hwords : ∀ w ∈ pySplit s, R w := hs s (List.mem_cons_self _ _) hlong
          have hspec := chunkWords_spec L R (pySplit s) [] chunks hwords hc (Or.inl rfl)
          exact ih _ _ hsrest hspec.1 hspec.2 d hd
      · have hfalse : cur.isEmpty = false := by simpa using hemp
        rw [show chunkGo L (s :: rest) cur chunks =
            if cur.length + s.length + 1 ≤ L then chunkGo L rest (cur ++ ' ' :: s) chunks
            else
              if L < s.length then
                chunkGo L rest (chunkWords L (pySplit s) [] (chunks ++ [cur])).2
                  (chunkWords L (pySplit s) [] (chunks ++ [cur])).1
              else chunkGo L rest s (chunks ++ [cur]) from by
          simp [chunkGo, hsfalse, hfalse]] at hd
        rw [if_neg hemp] at hchunks1
        by_cases hfit : cur.length + s.length + 1 ≤ L
        · rw [if_pos hfit] at hd
          refine ih _ chunks hsrest hc (Or.inr (Or.inl ?_)) d hd
          simp only [List.length_append, List.length_cons]
          omega
        · rw [if_neg hfit] at hd
          by_cases hlong : L < s.length
          · rw [if_pos hlong] at hd
            have hwords : ∀ w ∈ pySplit s, R w := hs s (List.mem_cons_self _ _) hlong
            have hspec := chunkWords_spec L R (pySplit s) [] _ hwords hchunks1 (Or.inl rfl)
            exact ih _ _ hsrest hspec.1 hspec.2 d hd
          · rw [if_neg hlong] at hd
            exact ih s _ hsrest hchunks1 (Or.inr (Or.inl (by omega))) d hd

/-- C2: every chunk produced by `smart_split_into_chunks(text, L)` has
length at most `L`, except that a chunk may exceed `L` only by being a
single whole word (an element of the whitespace-split) of a sentence that
alone exceeds `L` — the oversized sentence is split at word boundaries and
never mid-word. -/
theorem smart_chunks_length_bound (text : List Char) (L : Nat) (c : List Char)
    (hc : c ∈ smart_split_into_chunks text L) :
    c.length ≤ L ∨
      ∃ s ∈ split_into_sentences text, L < s.length ∧ c ∈ pySplit s := by
  refine chunkGo_spec L
    (fun d => ∃ s ∈ split_into_sentences text, L < s.length ∧ d ∈ pySplit s)
    (split_into_sentences text) [] [] ?_ (by simp) (Or.inl rfl) c hc
  exact fun s hs hlen w hw => ⟨s, hs, hlen, hw⟩

/-- Witness for C2 on the specification's own scenario: with
`chunk_size = 20` over `"One two three. Four five six seven."` the chunk
`"One two three."` is produced and satisfies the bound. -/
theorem smart_chunks_length_bound_witness :
    ("One two three.".toList ∈
      smart_split_into_chunks "One two three. Four five six seven.".toList 20) ∧
    ("One two three.".toList.length ≤ 20 ∨
      ∃ s ∈ split_into_sentences "One two three. Four five six seven.".toList,
        20 < s.length ∧ "One two three.".toList ∈ pySplit s) :=
  ⟨by decide, smart_chunks_length_bound _ 20 _ (by decide)⟩

/-- Filtering out whitespace erases a leading space. -/
theorem filter_nonws_space_cons (l : List Char) :
    (' ' :: l).filter (fun c => !pyWs c) = l.filter (fun c => !pyWs c) := by
  simp [List.filter_cons, pyWs]

/-- A run of whitespace contributes nothing to the non-whitespace
content. -/
theorem filter_nonws_of_all_ws (l : List Char) (h : ∀ c ∈ l, pyWs c = true) :
    l.filter (fun c => !pyWs c) = [] := by
  induction l with
  | nil => rfl
  | cons c r ih =>
    have hc := h c (List.mem_cons_self _ _)
    simp [List.filter_cons, hc, ih (fun x hx => h x (List.mem_cons_of_mem _ hx))]

/-- The head of a `dropWhile` residue falsifies the predicate. -/
theorem dropWhile_head_false {p : Char → Bool} :
    ∀ (l : List Char) (c : Char) (r : List Char), l.dropWhile p = c :: r → p c = false := by
  intro l
  induction l with
  | nil => intro c r h; cases h
  | cons x xs ih =>
    intro c r h
    by_cases hx : p x
    · rw [List.dropWhile_cons_of_pos hx] at h
      exact ih c r h
    · rw [List.dropWhile_cons_of_neg hx] at h
      cases h
      simpa using hx

/-- Dropping the `takeWhile` prefix is `dropWhile`. -/
theorem drop_takeWhile_length (p : Char → Bool) :
    ∀ l : List Char, l.drop (l.takeWhile p).length = l.dropWhile p := by
  intro l
  induction l with
  | nil => rfl
  | cons c r ih =>
    by_cases hc : p c
    · simp [List.takeWhile_cons_of_pos hc, List.dropWhile_cons_of_pos hc, ih]
    · simp [List.takeWhile_cons_of_neg hc, List.dropWhile_cons_of_neg hc]

/-- Python `str.split()` preserves the sequence of non-whitespace
characters. -/
theorem pySplitF_content : ∀ (fuel : Nat) (l : List Char), l.length ≤ fuel →
    (pySplitF fuel l).flatten.filter (fun c => !pyWs c) =
      l.filter (fun c => !pyWs c) := by
  intro fuel
  induction fuel with
  | zero =>
    intro l hl
    have : l = [] := List.eq_nil_of_length_eq_zero (Nat.le_zero.mp hl)
    subst this
    rfl
  | succ f ih =>
    intro l hl
    have hsplit : l.takeWhile pyWs ++ l.dropWhile pyWs = l :=
      List.takeWhile_append_dropWhile pyWs l
    have htkws : ∀ c ∈ l.takeWhile pyWs, pyWs c = true := by
      intro c hcmem
      exact List.mem_takeWhile_imp hcmem
    simp only [pySplitF]
    rcases hdw : l.dropWhile pyWs with _ | ⟨c, r⟩
    · rw [hdw] at hsplit
      simp only [hdw, List.flatten_nil, List.filter_nil]
      conv =>
        rhs
        rw [← hsplit]
      simp [List.filter_append, filter_nonws_of_all_ws _ htkws]
    · rw [hdw] at hsplit
      have hcnw : pyWs c = false := dropWhile_head_false l c r hdw
      have hw : (c :: r).takeWhile (fun x => !pyWs x) ++
          (c :: r).dropWhile (fun x => !pyWs x) = c :: r :=
        List.takeWhile_append_dropWhile _ _
      have hwne : ((c :: r).takeWhile (fun x => !pyWs x)).length ≠ 0 := by
        rw [List.takeWhile_cons_of_pos (by simp [hcnw])]
        simp
      have hlen : ((c :: r).dropWhile (fun x => !pyWs x)).length ≤ f := by
        have h1 := congrArg List.length hsplit
        have h2 := congrArg List.length hw
        simp only [List.length_append] at h1 h2
        omega
      have hrhs1 : l.filter (fun x => !pyWs x) = (c :: r).filter (fun x => !pyWs x) := by
        conv =>
          lhs
          rw [← hsplit]
        rw [List.filter_append, filter_nonws_of_all_ws _ htkws, List.nil_append]
      have hrhs2 : (c :: r).filter (fun x => !pyWs x) =
          ((c :: r).takeWhile (fun x => !pyWs x)).filter (fun x => !pyWs x) ++
          ((c :: r).dropWhile (fun x => !pyWs x)).filter (fun x => !pyWs x) := by
        conv =>
          lhs
          rw [← hw]
        rw [List.filter_append]
      simp only [hdw, drop_takeWhile_length]
      simp only [List.flatten_cons, List.filter_append, ih _ hlen]
      rw [hrhs1, hrhs2]

/-- Top-level form of `pySplitF_content`. -/
theorem pySplit_content (l : List Char) :
    (pySplit l).flatten.filter (fun c => !pyWs c) = l.filter (fun c => !pyWs c) :=
  pySplitF_content l.length l (le_refl _)

/-- The word loop emits exactly the incoming non-whitespace content,
in order. -/
theorem chunkWords_content (L : Nat) : ∀ (ws : List (List Char)) (cur2 : List Char)
    (chunks : List (List Char)),
    ((chunkWords L ws cur2 chunks).1.flatten ++ (chunkWords L ws cur2 chunks).2).filter
        (fun c => !pyWs c) =
      (chunks.flatten ++ cur2 ++ ws.flatten).filter (fun c => !pyWs c) := by
  intro ws
  induction ws with
  | nil =>
    intro cur2 chunks
    simp [chunkWords]
  | cons w rest ih =>
    intro cur2 chunks
    simp only [chunkWords]
    split
    · rename_i hemp
      have hnil : cur2 = [] := List.isEmpty_iff.mp hemp
      subst hnil
      split
      · rw [ih]
        simp [List.filter_append]
      · rw [ih]
        simp [List.filter_append]
    · split
      · rw [ih]
        simp [List.filter_append, filter_nonws_space_cons]
      · rw [ih]
        simp [List.filter_append]

/-- The sentence loop emits exactly the incoming non-whitespace content,
in order. -/
theorem chunkGo_content (L : Nat) : ∀ (sents : List (List Char)) (cur : List Char)
    (chunks : List (List Char)),
    (chunkGo L sents cur chunks).flatten.filter (fun c => !pyWs c) =
      (chunks.flatten ++ cur ++ sents.flatten).filter (fun c => !pyWs c) := by
  intro sents
  induction sents with
  | nil =>
    intro cur chunks
    simp only [chunkGo]
    split
    · rename_i hemp
      have : cur = [] := List.isEmpty_iff.mp hemp
      subst this
      simp
    · simp [List.filter_append]
  | cons s rest ih =>
    intro cur chunks
    simp only [chunkGo]
    split
    · rename_i hsemp
      have : s = [] := List.isEmpty_iff.mp hsemp
      subst this
      simp [ih]
    · split
      · rename_i hemp
        have : cur = [] := List.isEmpty_iff.mp hemp
        subst this
        split
        · rw [ih]
          simp [List.filter_append]
        · split
          · rw [ih, List.filter_append, chunkWords_content]
            simp only [List.filter_append, List.flatten_append, List.flatten_cons,
              List.flatten_nil, List.append_nil, List.nil_append, List.append_assoc,
              List.filter_nil, pySplit_content]
          · rw [ih]
            simp [List.filter_append]
      · split
        · rw [ih]
          simp [List.filter_append, filter_nonws_space_cons]
        · split
          · rw [ih, List.filter_append, chunkWords_content]
            simp only [List.filter_append, List.flatten_append, List.flatten_cons,
              List.flatten_nil, List.append_nil, List.nil_append, List.append_assoc,
              List.filter_nil, pySplit_content]
          · rw [ih]
            simp [List.filter_append]

/-- C1 amended: the chunk-packing stage is lossless modulo whitespace —
concatenating all chunks in document order reproduces exactly the
non-whitespace character sequence of the segmenter's sentences (no chunk
boundary drops or duplicates a non-whitespace character).  Exact
character-level reproduction of the chunker's raw input can fail (see the
counterexample): the segmenter collapses inter-sentence whitespace and its
protect/restore step can rewrite characters. -/
theorem chunks_preserve_sentence_content (text : List Char) (L : Nat) :
    (smart_split_into_chunks text L).flatten.filter (fun c => !pyWs c) =
      (split_into_sentences text).flatten.filter (fun c => !pyWs c) := by
  unfold smart_split_into_chunks
  simpa using chunkGo_content L (split_into_sentences text) [] []

/-- C1 counterexample: on the input `"a §DOT§ b"` the chunker produces the
single chunk `"a . b"` — the restore step of the segmenter rewrote the
literal placeholder `§DOT§` into `.` — so no re-insertion of whitespace
seams can reproduce the input (the chunk never occurs in it).  The input is
itself a fixed point of `clean_document(…, "txt")`, i.e. a producible
NormalizedText, so the failure is not an artifact of un-normalized input. -/
theorem chunker_recomposition_fails :
    smart_split_into_chunks "a §DOT§ b".toList 2200 = ["a . b".toList] ∧
    canRecompose "a §DOT§ b".toList
      (smart_split_into_chunks "a §DOT§ b".toList 2200) = false ∧
    clean_document "a §DOT§ b".toList "txt".toList true true true (1/1000 : ℚ) 50 =
      "a §DOT§ b".toList :=
  ⟨by decide, by decide, by with_unfolding_all decide⟩

/-!
## Character-preservation infrastructure for the `clean_document` invariants
-/

/-- `reSubF` preserves any character property that every matcher replacement
preserves. -/
theorem reSubF_pres (P : Char → Prop) (m : Matcher)
    (hm : ∀ (prev : Option Char) (t : List Char) (k : Nat) (repl : List Char),
      m prev t = some (k, repl) → (∀ c ∈ t, P c) → ∀ c ∈ repl, P c) :
    ∀ (fuel : Nat) (prev : Option Char) (s : List Char),
      (∀ c ∈ s, P c) → ∀ c ∈ reSubF m fuel prev s, P c := by
  intro fuel
  induction fuel with
  | zero => intro prev s _ c hc; simp [reSubF] at hc
  | succ f ih =>
    intro prev s hs c hc
    cases s with
    | nil => simp [reSubF] at hc
    | cons x rest =>
      have hrest : ∀ d ∈ rest, P d := fun d hd => hs d (List.mem_cons_of_mem _ hd)
      simp only [reSubF] at hc
      split at hc
      · rename_i k repl hmm
        split at hc
        · rcases List.mem_cons.mp hc with h | h
          · exact h ▸ hs x (List.mem_cons_self _ _)
          · exact ih (some x) rest hrest c h
        · rcases List.mem_append.mp hc with h | h
          · exact hm prev (x :: rest) k repl hmm hs c h
          · exact ih _ _ (fun d hd => hrest d (List.drop_subset _ _ hd)) c h
      · rcases List.mem_cons.mp hc with h | h
        · exact h ▸ hs x (List.mem_cons_self _ _)
        · exact ih (some x) rest hrest c h

/-- `reSub` version of `reSubF_pres`. -/
theorem reSub_pres (P : Char → Prop) (m : Matcher)
    (hm : ∀ (prev : Option Char) (t : List Char) (k : Nat) (repl : List Char),
      m prev t = some (k, repl) → (∀ c ∈ t, P c) → ∀ c ∈ repl, P c)
    (s : List Char) (hs : ∀ c ∈ s, P c) : ∀ c ∈ reSub m s, P c :=
  reSubF_pres P m hm s.length none s hs

theorem mem_stripWs {c : Char} {l : List Char} (h : c ∈ stripWs l) : c ∈ l := by
  unfold stripWs at h
  rw [List.mem_reverse] at h
  have h1 := (List.dropWhile_sublist pyWs).subset h
  rw [List.mem_reverse] at h1
  exact (List.dropWhile_sublist pyWs).subset h1

theorem mem_rstripWs {c : Char} {l : List Char} (h : c ∈ rstripWs l) : c ∈ l := by
  unfold rstripWs at h
  rw [List.mem_reverse] at h
  have h1 := (List.dropWhile_sublist pyWs).subset h
  rwa [List.mem_reverse] at h1

theorem mem_splitOnCharGo {sep : Char} {c : Char} :
    ∀ (l acc : List Char) (part : List Char),
      part ∈ splitOnCharGo sep acc l → c ∈ part → c ∈ acc ∨ c ∈ l := by
  intro l
  induction l with
  | nil =>
    intro acc part hp hc
    simp only [splitOnCharGo, List.mem_singleton] at hp
    subst hp
    exact Or.inl (List.mem_reverse.mp hc)
  | cons x rest ih =>
    intro acc part hp hc
    simp only [splitOnCharGo] at hp
    split at hp
    · rcases List.mem_cons.mp hp with h | h
      · subst h
        exact Or.inl (List.mem_reverse.mp hc)
      · rcases ih [] part h hc with h1 | h1
        · cases h1
        · exact Or.inr (List.mem_cons_of_mem _ h1)
    · rcases ih (x :: acc) part hp hc with h1 | h1
      · rcases List.mem_cons.mp h1 with h2 | h2
        · exact Or.inr (h2 ▸ List.mem_cons_self _ _)
        · exact Or.inl h2
      · exact Or.inr (List.mem_cons_of_mem _ h1)

theorem mem_splitOnChar {sep c : Char} {l part : List Char}
    (hp : part ∈ splitOnChar sep l) (hc : c ∈ part) : c ∈ l := by
  rcases mem_splitOnCharGo l [] part hp hc with h | h
  · cases h
  · exact h

theorem mem_splitOnSubF {sep : List Char} {c : Char} :
    ∀ (fuel : Nat) (acc l part : List Char),
      part ∈ splitOnSubF sep fuel acc l → c ∈ part → c ∈ acc ∨ c ∈ l := by
  intro fuel
  induction fuel with
  | zero =>
    intro acc l part hp hc
    simp only [splitOnSubF, List.mem_singleton] at hp
    subst hp
    rcases List.mem_append.mp hc with h | h
    · exact Or.inl (List.mem_reverse.mp h)
    · exact Or.inr h
  | succ f ih =>
    intro acc l part hp hc
    cases l with
    | nil =>
      simp only [splitOnSubF, List.mem_singleton] at hp
      subst hp
      exact Or.inl (List.mem_reverse.mp hc)
    | cons x rest =>
      simp only [splitOnSubF] at hp
      split at hp
      · rcases List.mem_cons.mp hp with h | h
        · subst h
          exact Or.inl (List.mem_reverse.mp hc)
        · rcases ih [] _ part h hc with h1 | h1
          · cases h1
          · exact Or.inr (List.drop_subset _ _ h1)
      · rcases ih (x :: acc) rest part hp hc with h1 | h1
        · rcases List.mem_cons.mp h1 with h2 | h2
          · exact Or.inr (h2 ▸ List.mem_cons_self _ _)
          · exact Or.inl h2
        · exact Or.inr (List.mem_cons_of_mem _ h1)

theorem mem_splitOnSub {sep : List Char} {c : Char} {l part : List Char}
    (hp : part ∈ splitOnSub sep l) (hc : c ∈ part) : c ∈ l := by
  rcases mem_splitOnSubF l.length [] l part hp hc with h | h
  · cases h
  · exact h

theorem mem_replaceSubF {pat repl : List Char} {c : Char} :
    ∀ (fuel : Nat) (l : List Char),
      c ∈ replaceSubF pat repl fuel l → c ∈ l ∨ c ∈ repl := by
  intro fuel
  induction fuel with
  | zero => intro l h; exact Or.inl h
  | succ f ih =>
    intro l h
    cases l with
    | nil => simp [replaceSubF] at h
    | cons x rest =>
      simp only [replaceSubF] at h
      split at h
      · rcases List.mem_append.mp h with h1 | h1
        · exact Or.inr h1
        · rcases ih _ h1 with h2 | h2
          · exact Or.inl (List.drop_subset _ _ h2)
          · exact Or.inr h2
      · rcases List.mem_cons.mp h with h1 | h1
        · exact Or.inl (h1 ▸ List.mem_cons_self _ _)
        · rcases ih _ h1 with h2 | h2
          · exact Or.inl (List.mem_cons_of_mem _ h2)
          · exact Or.inr h2

theorem mem_replaceSub {pat repl : List Char} {c : Char} {l : List Char}
    (h : c ∈ replaceSub pat repl l) : c ∈ l ∨ c ∈ repl :=
  mem_replaceSubF l.length l h

theorem mem_joinWith {sep : List Char} {c : Char} :
    ∀ (parts : List (List Char)), c ∈ joinWith sep parts →
      c ∈ sep ∨ ∃ p ∈ parts, c ∈ p := by
  intro parts
  induction parts with
  | nil => intro h; cases h
  | cons p rest ih =>
    intro h
    cases rest with
    | nil =>
      exact Or.inr ⟨p, List.mem_cons_self _ _, h⟩
    | cons q rest2 =>
      simp only [joinWith] at h
      rcases List.mem_append.mp h with h1 | h1
      · rcases List.mem_append.mp h1 with h2 | h2
        · exact Or.inr ⟨p, List.mem_cons_self _ _, h2⟩
        · exact Or.inl h2
      · rcases ih h1 with h2 | ⟨q2, hq2, hcq2⟩
        · exact Or.inl h2
        · exact Or.inr ⟨q2, List.mem_cons_of_mem _ hq2, hcq2⟩

set_option maxHeartbeats 1600000 in
theorem mem_pySplitlinesGo {c : Char} :
    ∀ (acc l part : List Char),
      part ∈ pySplitlinesGo acc l → c ∈ part → c ∈ acc ∨ c ∈ l := by
  intro acc l
  induction acc, l using pySplitlinesGo.induct with
  | case1 acc hemp =>
    intro part hp hc
    rw [pySplitlinesGo.eq_def] at hp
    simp only [hemp, if_true] at hp
    cases hp
  | case2 acc hemp =>
    intro part hp hc
    rw [pySplitlinesGo.eq_def] at hp
    simp only [if_neg hemp] at hp
    simp only [List.mem_singleton] at hp
    subst hp
    exact Or.inl (List.mem_reverse.mp hc)
  | case3 acc r ih =>
    intro part hp hc
    rw [pySplitlinesGo.eq_def] at hp
    rcases List.mem_cons.mp hp with h | h
    · subst h
      exact Or.inl (List.mem_reverse.mp hc)
    · rcases ih part h hc with h1 | h1
      · cases h1
      · exact Or.inr (by simp [h1])
  | case4 acc x r hne hlb ih =>
    intro part hp hc
    rw [pySplitlinesGo.eq_def] at hp
    split at hp
    · rename_i heq
      cases heq
    · rename_i r2 heq
      injection heq with h1 h2
      exact absurd (hne r2 h1 h2) (fun h => h)
    · rename_i c2 r2 hne2 heq
      injection heq with h1 h2
      subst h1
      subst h2
      rw [if_pos hlb] at hp
      rcases List.mem_cons.mp hp with h | h
      · subst h
        exact Or.inl (List.mem_reverse.mp hc)
      · rcases ih part h hc with h1 | h1
        · cases h1
        · exact Or.inr (List.mem_cons_of_mem _ h1)
  | case5 acc x r hne hlb ih =>
    intro part hp hc
    rw [pySplitlinesGo.eq_def] at hp
    split at hp
    · rename_i heq
      cases heq
    · rename_i r2 heq
      injection heq with h1 h2
      exact absurd (hne r2 h1 h2) (fun h => h)
    · rename_i c2 r2 hne2 heq
      injection heq with h1 h2
      subst h1
      subst h2
      rw [if_neg hlb] at hp
      rcases ih part hp hc with h1 | h1
      · rcases List.mem_cons.mp h1 with h2 | h2
        · exact Or.inr (h2 ▸ List.mem_cons_self _ _)
        · exact Or.inl h2
      · exact Or.inr (List.mem_cons_of_mem _ h1)

theorem mem_pySplitlines {c : Char} {l part : List Char}
    (hp : part ∈ pySplitlines l) (hc : c ∈ part) : c ∈ l := by
  rcases mem_pySplitlinesGo [] l part hp hc with h | h
  · cases h
  · exact h

theorem mem_takeWhile {p : Char → Bool} {l : List Char} {c : Char}
    (h : c ∈ l.takeWhile p) : c ∈ l :=
  (List.takeWhile_sublist p).subset h

theorem mem_of_headq {l : List Char} {c : Char} (h : l.head? = some c) : c ∈ l := by
  cases l with
  | nil => cases h
  | cons x r =>
    injection h with h1
    exact h1 ▸ List.mem_cons_self x r

theorem SafeOver_refl (t : List Char) : SafeOver t t := fun _ hc => Or.inl hc

theorem SafeOver_trans {t u v : List Char} (h1 : SafeOver t u) (h2 : SafeOver u v) :
    SafeOver t v := by
  intro c hc
  rcases h2 c hc with h | h
  · exact h1 c h
  · exact Or.inr h

theorem SafeOver_nil (t : List Char) : SafeOver t [] := by
  intro c hc
  cases hc

theorem SafeOver_reSub {m : Matcher} (hm : SafeMatcher m) (t : List Char) :
    SafeOver t (reSub m t) := by
  intro c hc
  refine reSub_pres (fun d => d ∈ t ∨ d ∈ safeChars) m ?_ t (fun d hd => Or.inl hd) c hc
  intro prev s k repl hms hs d hd
  rcases hm prev s k repl hms d hd with h | h
  · exact hs d h
  · exact Or.inr h

theorem SafeOver_stripWs (t : List Char) : SafeOver t (stripWs t) :=
  fun _ hc => Or.inl (mem_stripWs hc)

theorem SafeOver_rstripWs (t : List Char) : SafeOver t (rstripWs t) :=
  fun _ hc => Or.inl (mem_rstripWs hc)

theorem foreignBorn_safe : ∀ c ∈ "foreign born".toList, c ∈ safeChars := by decide

theorem safeMatcher_mWsRun : SafeMatcher mWsRun := by
  intro prev t k repl h c hc
  simp only [mWsRun] at h
  split at h
  · cases h
  · simp only [Option.some.injEq, Prod.mk.injEq] at h
    obtain ⟨h1, h2⟩ := h
    subst h2
    have hce : c = ' ' := List.mem_singleton.mp hc
    subst hce
    exact Or.inr (by decide)

theorem safeMatcher_mUnderscoreRun : SafeMatcher mUnderscoreRun := by
  intro prev t k repl h c hc
  simp only [mUnderscoreRun] at h
  split at h
  · cases h
  · simp only [Option.some.injEq, Prod.mk.injEq] at h
    obtain ⟨h1, h2⟩ := h
    subst h2
    have hce : c = ' ' := List.mem_singleton.mp hc
    subst hce
    exact Or.inr (by decide)

theorem safeMatcher_mWsNlRun : SafeMatcher mWsNlRun := by
  intro prev t k repl h c hc
  simp only [mWsNlRun] at h
  split at h
  · simp only [Option.some.injEq, Prod.mk.injEq] at h
    obtain ⟨h1, h2⟩ := h
    subst h2
    have hce : c = ' ' := List.mem_singleton.mp hc
    subst hce
    exact Or.inr (by decide)
  · cases h

theorem safeMatcher_mNl3 : SafeMatcher mNl3 := by
  intro prev t k repl h c hc
  simp only [mNl3] at h
  split at h
  · cases h
  · simp only [Option.some.injEq, Prod.mk.injEq] at h
    obtain ⟨h1, h2⟩ := h
    subst h2
    have hce : c = '\n' := by
      rcases List.mem_cons.mp hc with h3 | h3
      · exact h3
      · exact List.mem_singleton.mp h3
    subst hce
    exact Or.inr (by decide)

theorem safeMatcher_mForeignBorn : SafeMatcher mForeignBorn := by
  intro prev t k repl h c hc
  cases t with
  | nil => simp [mForeignBorn] at h
  | cons x r =>
    simp only [mForeignBorn] at h
    split at h
    · split at h
      · simp only [Option.some.injEq, Prod.mk.injEq] at h
        obtain ⟨h1, h2⟩ := h
        subst h2
        exact Or.inr (foreignBorn_safe c hc)
      · split at h
        · cases h
        · simp only [Option.some.injEq, Prod.mk.injEq] at h
          obtain ⟨h1, h2⟩ := h
          subst h2
          exact Or.inr (foreignBorn_safe c hc)
    · cases h

theorem safeMatcher_mDelChar (p : Char → Bool) : SafeMatcher (mDelChar p) := by
  intro prev t k repl h c hc
  cases t with
  | nil => simp [mDelChar] at h
  | cons x r =>
    simp only [mDelChar] at h
    split at h
    · simp only [Option.some.injEq, Prod.mk.injEq] at h
      obtain ⟨h1, h2⟩ := h
      subst h2
      cases hc
    · cases h

theorem safeMatcher_mDelete (a : REng) : SafeMatcher (mDelete a) := by
  intro prev t k repl h c hc
  simp only [mDelete] at h
  cases hr : reFirst a t with
  | none => rw [hr] at h; cases h
  | some n =>
    rw [hr] at h
    simp only [Option.map_some, Option.map_some', Option.some.injEq, Prod.mk.injEq] at h
    obtain ⟨h1, h2⟩ := h
    subst h2
    cases hc

theorem safeMatcher_mSupDagger : SafeMatcher mSupDagger := by
  intro prev t k repl h c hc
  simp only [mSupDagger] at h
  split at h
  · cases h
  · simp only [Option.some.injEq, Prod.mk.injEq] at h
    obtain ⟨h1, h2⟩ := h
    subst h2
    cases hc

theorem safeMatcher_mMultiPunct : SafeMatcher mMultiPunct := by
  intro prev t k repl h c hc
  cases t with
  | nil => simp [mMultiPunct] at h
  | cons p r =>
    simp only [mMultiPunct] at h
    split at h
    · split at h
      · cases h
      · simp only [Option.some.injEq, Prod.mk.injEq] at h
        obtain ⟨h1, h2⟩ := h
        subst h2
        have hce : c = p := List.mem_singleton.mp hc
        subst hce
        exact Or.inl (List.mem_cons_self _ _)
    · cases h

theorem safeMatcher_mPunctNeedsSpace : SafeMatcher mPunctNeedsSpace := by
  intro prev t k repl h c hc
  cases t with
  | nil => simp [mPunctNeedsSpace] at h
  | cons p r =>
    cases r with
    | nil => simp [mPunctNeedsSpace] at h
    | cons c2 r2 =>
      simp only [mPunctNeedsSpace] at h
      split at h
      · simp only [Option.some.injEq, Prod.mk.injEq] at h
        obtain ⟨h1, h2⟩ := h
        subst h2
        rcases List.mem_cons.mp hc with h3 | h3
        · exact Or.inl (h3 ▸ List.mem_cons_self _ _)
        · rcases List.mem_cons.mp h3 with h4 | h4
          · subst h4
            exact Or.inr (by decide)
          · have hce : c = c2 := List.mem_singleton.mp h4
            subst hce
            exact Or.inl (List.mem_cons_of_mem _ (List.mem_cons_self _ _))
      · cases h

theorem safeMatcher_mSpaceBeforePunct : SafeMatcher mSpaceBeforePunct := by
  intro prev t k repl h c hc
  simp only [mSpaceBeforePunct] at h
  split at h
  · cases h
  · cases hhd : (t.drop (t.takeWhile pyWs).length).head? with
    | none => rw [hhd] at h; cases h
    | some p =>
      rw [hhd] at h
      split at h
      · rename_i p2 heq
        injection heq with hpe
        subst hpe
        split at h
        · simp only [Option.some.injEq, Prod.mk.injEq] at h
          obtain ⟨h1, h2⟩ := h
          subst h2
          have hce : c = p := List.mem_singleton.mp hc
          subst hce
          exact Or.inl (List.drop_subset _ _ (mem_of_headq hhd))
        · cases h
      · cases h

theorem safeMatcher_mPunctNum : SafeMatcher mPunctNum := by
  intro prev t k repl h c hc
  cases t with
  | nil => simp [mPunctNum] at h
  | cons p r =>
    simp only [mPunctNum] at h
    split at h
    · split at h
      · cases h
      · split at h
        · simp only [Option.some.injEq, Prod.mk.injEq] at h
          obtain ⟨h1, h2⟩ := h
          subst h2
          have hce : c = p := List.mem_singleton.mp hc
          subst hce
          exact Or.inl (List.mem_cons_self _ _)
        · split at h
          · cases h
          · simp only [Option.some.injEq, Prod.mk.injEq] at h
            obtain ⟨h1, h2⟩ := h
            subst h2
            have hce : c = p := List.mem_singleton.mp hc
            subst hce
            exact Or.inl (List.mem_cons_self _ _)
    · cases h

theorem safeMatcher_mBracketNum : SafeMatcher mBracketNum := by
  intro prev t k repl h c hc
  simp only [mBracketNum] at h
  split at h
  · split at h
    · cases h
    · split at h
      · simp only [Option.some.injEq, Prod.mk.injEq] at h
        obtain ⟨h1, h2⟩ := h
        subst h2
        cases hc
      · cases h
  · cases h

theorem safeMatcher_mParenNum : SafeMatcher mParenNum := by
  intro prev t k repl h c hc
  simp only [mParenNum] at h
  split at h
  · split at h
    · cases h
    · split at h
      · simp only [Option.some.injEq, Prod.mk.injEq] at h
        obtain ⟨h1, h2⟩ := h
        subst h2
        cases hc
      · cases h
  · cases h

theorem safeMatcher_mHyphLB : SafeMatcher mHyphLB := by
  intro prev t k repl h c hc
  simp only [mHyphLB] at h
  split at h
  · rename_i a hy b rest
    split at h
    · simp only [Option.some.injEq, Prod.mk.injEq] at h
      obtain ⟨h1, h2⟩ := h
      subst h2
      rcases List.mem_cons.mp hc with h3 | h3
      · subst h3
        exact Or.inl (List.mem_cons_self _ _)
      · have hce : c = b := List.mem_singleton.mp h3
        subst hce
        exact Or.inl (by simp)
    · cases h
  · cases h


theorem safeMatcher_mHyphMid : SafeMatcher mHyphMid := by
  intro prev t k repl h c hc
  cases t with
  | nil => simp [mHyphMid] at h
  | cons x r =>
    simp only [mHyphMid] at h
    split at h
    · split at h
      · rename_i hh r2 heq
        split at h
        · split at h
          · cases h
          · split at h
            · cases h
            · simp only [Option.some.injEq, Prod.mk.injEq] at h
              obtain ⟨h1, h2⟩ := h
              subst h2
              rcases List.mem_append.mp hc with h3 | h3
              · exact Or.inl (mem_takeWhile h3)
              · have h4 : c ∈ r2 := List.drop_subset _ _ (mem_takeWhile h3)
                have h5 : c ∈ hh :: r2 := List.mem_cons_of_mem _ h4
                rw [← heq] at h5
                exact Or.inl (List.drop_subset _ _ h5)
        · cases h
      · cases h
    · cases h

theorem findHyphSuffix_subset :
    ∀ (sfxs : List (List Char)) (r : List Char) (n : Nat) (repl : List Char),
      findHyphSuffix r sfxs = some (n, repl) → ∀ c ∈ repl, c ∈ r := by
  intro sfxs
  induction sfxs with
  | nil => intro r n repl h; simp [findHyphSuffix] at h
  | cons sfx rest ih =>
    intro r n repl h c hc
    simp only [findHyphSuffix] at h
    split at h
    · split at h
      · simp only [Option.some.injEq, Prod.mk.injEq] at h
        obtain ⟨h1, h2⟩ := h
        subst h2
        exact List.take_subset _ _ hc
      · rename_i c2 heq
        split at h
        · simp only [Option.some.injEq, Prod.mk.injEq] at h
          obtain ⟨h1, h2⟩ := h
          subst h2
          rcases List.mem_append.mp hc with h3 | h3
          · exact List.take_subset _ _ h3
          · have hce : c = c2 := List.mem_singleton.mp h3
            subst hce
            exact List.drop_subset _ _ (mem_of_headq heq)
        · exact ih r n repl h c hc
    · exact ih r n repl h c hc

theorem safeMatcher_mHyphSuffix : SafeMatcher mHyphSuffix := by
  intro prev t k repl h c hc
  cases t with
  | nil => simp [mHyphSuffix] at h
  | cons a r0 =>
    cases r0 with
    | nil => simp [mHyphSuffix] at h
    | cons hy r =>
      simp only [mHyphSuffix] at h
      split at h
      · split at h
        · rename_i n2 repl2 heq
          simp only [Option.some.injEq, Prod.mk.injEq] at h
          obtain ⟨h1, h2⟩ := h
          subst h2
          rcases List.mem_cons.mp hc with h3 | h3
          · subst h3
            exact Or.inl (List.mem_cons_self _ _)
          · have h4 : c ∈ r := findHyphSuffix_subset hyphSuffixes r n2 repl2 heq c h3
            exact Or.inl (List.mem_cons_of_mem _ (List.mem_cons_of_mem _ h4))
        · cases h
      · cases h

theorem SafeOver_wsCollapse (t : List Char) : SafeOver t (wsCollapse t) :=
  SafeOver_reSub safeMatcher_mWsRun t

theorem SafeOver_normalize (t : List Char) : SafeOver t (normalize_whitespace t) := by
  unfold normalize_whitespace
  exact SafeOver_trans (SafeOver_wsCollapse t) (SafeOver_stripWs _)

theorem SafeOver_simple_tts_clean (t : List Char) : SafeOver t (simple_tts_clean t) := by
  unfold simple_tts_clean
  exact SafeOver_trans (SafeOver_trans (SafeOver_trans
    (SafeOver_reSub (safeMatcher_mDelChar zwChar) t)
    (SafeOver_reSub (safeMatcher_mDelChar ctrlChar) _))
    (SafeOver_wsCollapse _)) (SafeOver_stripWs _)

theorem SafeOver_pageCitationSub (t : List Char) : SafeOver t (pageCitationSub t) :=
  SafeOver_reSub (safeMatcher_mDelete pageCitation) t

theorem SafeOver_fix_line_break_hyphenation (t : List Char) :
    SafeOver t (fix_line_break_hyphenation t) := by
  unfold fix_line_break_hyphenation
  split
  · exact SafeOver_nil t
  · exact SafeOver_trans (SafeOver_trans
      (SafeOver_reSub safeMatcher_mHyphLB t)
      (SafeOver_reSub safeMatcher_mHyphMid _))
      (SafeOver_reSub safeMatcher_mHyphSuffix _)

theorem SafeOver_inline_footnote_sub (t : List Char) :
    SafeOver t (inline_footnote_sub t) := by
  unfold inline_footnote_sub
  exact SafeOver_trans (SafeOver_trans (SafeOver_trans
    (SafeOver_reSub safeMatcher_mBracketNum t)
    (SafeOver_reSub safeMatcher_mParenNum _))
    (SafeOver_reSub safeMatcher_mPunctNum _))
    (SafeOver_reSub safeMatcher_mSupDagger _)

theorem SafeOver_fix_punctuation_spacing (t : List Char) :
    SafeOver t (fix_punctuation_spacing t) := by
  unfold fix_punctuation_spacing
  split
  · exact SafeOver_nil t
  · exact SafeOver_trans (SafeOver_trans
      (SafeOver_reSub safeMatcher_mSpaceBeforePunct t)
      (SafeOver_reSub safeMatcher_mPunctNeedsSpace _))
      (SafeOver_reSub safeMatcher_mMultiPunct _)

theorem SafeOver_remove_references (t : List Char) :
    SafeOver t (remove_references t) := by
  unfold remove_references
  split
  · exact SafeOver_nil t
  · exact SafeOver_trans (SafeOver_trans (SafeOver_trans
      (SafeOver_reSub (safeMatcher_mDelete urlPat) t)
      (SafeOver_reSub (safeMatcher_mDelete wwwPat) _))
      (SafeOver_reSub (safeMatcher_mDelete emailPat) _))
      (SafeOver_reSub (safeMatcher_mDelete citationParen) _)

theorem SafeOver_replaceSub_safe {pat repl : List Char}
    (hr : ∀ c ∈ repl, c ∈ safeChars) (t : List Char) :
    SafeOver t (replaceSub pat repl t) := by
  intro c hc
  rcases mem_replaceSub hc with h | h
  · exact Or.inl h
  · exact Or.inr (hr c h)


theorem contains_mem {t : List Char} {a : Char} (h : t.contains a = true) : a ∈ t := by
  simpa using h

theorem mem_dropHeaderLine {part : List Char} :
    ∀ (ls : List (List Char)), part ∈ dropHeaderLine ls → part ∈ ls := by
  intro ls
  induction ls with
  | nil => intro h; simp [dropHeaderLine] at h
  | cons ln rest ih =>
    intro h
    simp only [dropHeaderLine] at h
    split at h
    · rcases List.mem_cons.mp h with h1 | h1
      · exact h1 ▸ List.mem_cons_self _ _
      · exact List.mem_cons_of_mem _ (ih h1)
    · split at h
      · exact List.mem_cons_of_mem _ h
      · exact h

theorem mem_dropBottomPageNumRev {part : List Char} :
    ∀ (ls : List (List Char)), part ∈ dropBottomPageNumRev ls → part ∈ ls := by
  intro ls
  induction ls with
  | nil => intro h; simp [dropBottomPageNumRev] at h
  | cons ln rest ih =>
    intro h
    simp only [dropBottomPageNumRev] at h
    split at h
    · rcases List.mem_cons.mp h with h1 | h1
      · exact h1 ▸ List.mem_cons_self _ _
      · exact List.mem_cons_of_mem _ (ih h1)
    · split at h
      · exact List.mem_cons_of_mem _ h
      · exact h

theorem mem_cleanTxtGo {cands : List (List Char)} {part : List Char} :
    ∀ (ls : List (List Char)) (b : Bool), part ∈ cleanTxtGo cands b ls → part ∈ ls := by
  intro ls
  induction ls with
  | nil => intro b h; simp [cleanTxtGo] at h
  | cons ln rest ih =>
    intro b h
    simp only [cleanTxtGo] at h
    split at h
    · rcases List.mem_cons.mp h with h1 | h1
      · exact h1 ▸ List.mem_cons_self _ _
      · exact List.mem_cons_of_mem _ (ih true h1)
    · split at h
      · exact List.mem_cons_of_mem _ (ih false h)
      · split at h
        · exact List.mem_cons_of_mem _ (ih false h)
        · split at h
          · exact List.mem_cons_of_mem _ (ih false h)
          · split at h
            · exact List.mem_cons_of_mem _ (ih false h)
            · rcases List.mem_cons.mp h with h1 | h1
              · exact h1 ▸ List.mem_cons_self _ _
              · exact List.mem_cons_of_mem _ (ih false h1)

theorem mem_pages_subset {t page : List Char} {c : Char}
    (hp : page ∈ (if t.contains '\x0c' then splitOnChar '\x0c' t else [t]))
    (hc : c ∈ page) : c ∈ t := by
  split at hp
  · exact mem_splitOnChar hp hc
  · have hpe : page = t := List.mem_singleton.mp hp
    exact hpe ▸ hc

theorem SafeOver_remove_citation_lines (t : List Char) :
    SafeOver t (remove_citation_lines t) := by
  unfold remove_citation_lines
  split
  · exact SafeOver_nil t
  · intro c hc
    rcases mem_joinWith _ hc with h | ⟨p, hp, hcp⟩
    · exact Or.inr ((List.mem_singleton.mp h) ▸ (by decide))
    · have hp2 : p ∈ splitOnChar '\n' t := List.mem_of_mem_filter hp
      exact Or.inl (mem_splitOnChar hp2 hcp)

theorem SafeOver_strip_firstline_headers (t : List Char) :
    SafeOver t (strip_firstline_headers t) := by
  unfold strip_firstline_headers
  split
  · exact SafeOver_nil t
  · intro c hc
    dsimp only at hc
    have hpart : ∀ page ∈ (if t.contains '\x0c' then splitOnChar '\x0c' t else [t]),
        c ∈ joinWith ['\n'] (dropHeaderLine (splitOnChar '\n' (stripWs page))) →
        c ∈ t ∨ c ∈ safeChars := by
      intro page hpage hcp
      rcases mem_joinWith _ hcp with h2 | ⟨ln, hln, hcln⟩
      · exact Or.inr ((List.mem_singleton.mp h2) ▸ (by decide))
      · have h3 : ln ∈ splitOnChar '\n' (stripWs page) := mem_dropHeaderLine _ hln
        have h4 : c ∈ page := mem_stripWs (mem_splitOnChar h3 hcln)
        exact Or.inl (mem_pages_subset hpage h4)
    split at hc
    · rename_i hcont
      rcases mem_joinWith _ hc with h | ⟨p, hp, hcp⟩
      · exact Or.inl ((List.mem_singleton.mp h) ▸ contains_mem hcont)
      · obtain ⟨page, hpage, rfl⟩ := List.mem_map.mp hp
        exact hpart page (by rw [if_pos hcont]; exact hpage) hcp
    · rename_i hncont
      rcases mem_joinWith _ hc with h | ⟨p, hp, hcp⟩
      · exact Or.inr ((List.mem_singleton.mp h) ▸ (by decide))
      · obtain ⟨page, hpage, rfl⟩ := List.mem_map.mp hp
        exact hpart page (by rw [if_neg hncont]; exact hpage) hcp

theorem SafeOver_remove_bottom_page_numbers (t : List Char) :
    SafeOver t (remove_bottom_page_numbers t) := by
  unfold remove_bottom_page_numbers
  split
  · exact SafeOver_nil t
  · intro c hc
    dsimp only at hc
    have hpart : ∀ page ∈ (if t.contains '\x0c' then splitOnChar '\x0c' t else [t]),
        c ∈ joinWith ['\n']
          ((dropBottomPageNumRev (splitOnChar '\n' (stripWs page)).reverse).reverse) →
        c ∈ t ∨ c ∈ safeChars := by
      intro page hpage hcp
      rcases mem_joinWith _ hcp with h2 | ⟨ln, hln, hcln⟩
      · exact Or.inr ((List.mem_singleton.mp h2) ▸ (by decide))
      · have h3 : ln ∈ dropBottomPageNumRev (splitOnChar '\n' (stripWs page)).reverse :=
          List.mem_reverse.mp hln
        have h4 : ln ∈ (splitOnChar '\n' (stripWs page)).reverse := mem_dropBottomPageNumRev _ h3
        have h5 : ln ∈ splitOnChar '\n' (stripWs page) := List.mem_reverse.mp h4
        have h6 : c ∈ page := mem_stripWs (mem_splitOnChar h5 hcln)
        exact Or.inl (mem_pages_subset hpage h6)
    split at hc
    · rename_i hcont
      rcases mem_joinWith _ hc with h | ⟨p, hp, hcp⟩
      · exact Or.inl ((List.mem_singleton.mp h) ▸ contains_mem hcont)
      · obtain ⟨page, hpage, rfl⟩ := List.mem_map.mp hp
        exact hpart page (by rw [if_pos hcont]; exact hpage) hcp
    · rename_i hncont
      rcases mem_joinWith _ hc with h | ⟨p, hp, hcp⟩
      · exact Or.inr ((List.mem_singleton.mp h) ▸ (by decide))
      · obtain ⟨page, hpage, rfl⟩ := List.mem_map.mp hp
        exact hpart page (by rw [if_neg hncont]; exact hpage) hcp

theorem SafeOver_remove_footnote_markers (t : List Char) :
    SafeOver t (remove_footnote_markers t) := by
  unfold remove_footnote_markers
  split
  · exact SafeOver_nil t
  · have hst : SafeOver t (pageCitationSub (inline_footnote_sub t)) :=
      SafeOver_trans (SafeOver_inline_footnote_sub t) (SafeOver_pageCitationSub _)
    intro c hc
    dsimp only at hc
    have hpart : ∀ page ∈ (if (pageCitationSub (inline_footnote_sub t)).contains '\x0c' then
          splitOnChar '\x0c' (pageCitationSub (inline_footnote_sub t))
        else [pageCitationSub (inline_footnote_sub t)]),
        c ∈ rstripWs (joinWith ['\n']
          ((pySplitlines page).take (footnoteCutIdx (pySplitlines page)))) →
        c ∈ t ∨ c ∈ safeChars := by
      intro page hpage hcp
      have h2 := mem_rstripWs hcp
      rcases mem_joinWith _ h2 with h3 | ⟨ln, hln, hcln⟩
      · exact Or.inr ((List.mem_singleton.mp h3) ▸ (by decide))
      · have h4 : ln ∈ pySplitlines page := List.take_subset _ _ hln
        have h5 : c ∈ page := mem_pySplitlines h4 hcln
        exact hst c (mem_pages_subset hpage h5)
    split at hc
    · rename_i hcont
      rcases mem_joinWith _ hc with h | ⟨p, hp, hcp⟩
      · exact hst _ ((List.mem_singleton.mp h) ▸ contains_mem hcont)
      · obtain ⟨page, hpage, rfl⟩ := List.mem_map.mp hp
        exact hpart page (by rw [if_pos hcont]; exact hpage) hcp
    · rename_i hncont
      rcases mem_joinWith _ hc with h | ⟨p, hp, hcp⟩
      · exact Or.inr ((List.mem_singleton.mp h) ▸ (by decide))
      · obtain ⟨page, hpage, rfl⟩ := List.mem_map.mp hp
        exact hpart page (by rw [if_neg hncont]; exact hpage) hcp

theorem SafeOver_join_paragraphs_smart (t : List Char) :
    SafeOver t (join_paragraphs_smart t) := by
  unfold join_paragraphs_smart
  split
  · exact SafeOver_nil t
  · have h1 : SafeOver t (replaceSub ['\x0c'] "\n\n".toList t) :=
      SafeOver_replaceSub_safe (by decide) t
    intro c hc
    dsimp only at hc
    rcases mem_joinWith _ hc with h | ⟨p, hp, hcp⟩
    · have hs : ∀ x ∈ "\n\n".toList, x ∈ safeChars := by decide
      exact Or.inr (hs c h)
    · obtain ⟨q, hq, rfl⟩ := List.mem_map.mp hp
      have hq2 : q ∈ (splitOnSub "\n\n".toList (replaceSub ['\x0c'] "\n\n".toList t)).map stripWs :=
        List.mem_of_mem_filter hq
      obtain ⟨part, hpart, rfl⟩ := List.mem_map.mp hq2
      have h2 : SafeOver part (wsCollapse (replaceSub ['\n'] [' '] (stripWs part))) :=
        SafeOver_trans (SafeOver_trans (SafeOver_stripWs part)
          (SafeOver_replaceSub_safe (by decide) _)) (SafeOver_wsCollapse _)
      rcases h2 c hcp with h3 | h3
      · exact h1 c (mem_splitOnSub hpart h3)
      · exact Or.inr h3

theorem SafeOver_join_paragraphs_smart_txt (t : List Char) :
    SafeOver t (join_paragraphs_smart_txt t) := by
  unfold join_paragraphs_smart_txt
  split
  · exact SafeOver_nil t
  · intro c hc
    dsimp only at hc
    rcases mem_joinWith _ hc with h | ⟨p, hp, hcp⟩
    · have hs : ∀ x ∈ "\n\n".toList, x ∈ safeChars := by decide
      exact Or.inr (hs c h)
    · obtain ⟨q, hq, rfl⟩ := List.mem_map.mp hp
      obtain ⟨part, hpart, rfl⟩ := List.mem_map.mp hq
      split at hcp
      · cases hcp
      · have h2 : SafeOver part (stripWs (wsCollapse (reSub mWsNlRun (stripWs part)))) :=
          SafeOver_trans (SafeOver_trans (SafeOver_trans (SafeOver_stripWs part)
            (SafeOver_reSub safeMatcher_mWsNlRun _)) (SafeOver_wsCollapse _)) (SafeOver_stripWs _)
        rcases h2 c hcp with h3 | h3
        · exact Or.inl (mem_splitOnSub hpart h3)
        · exact Or.inr h3

theorem SafeOver_clean_txt_headers_and_footnotes (t : List Char) :
    SafeOver t (clean_txt_headers_and_footnotes t) := by
  unfold clean_txt_headers_and_footnotes
  split
  · exact SafeOver_nil t
  · have ht2 : SafeOver t
        (pageCitationSub (replaceSub ['\r'] ['\n'] (replaceSub "\r\n".toList "\n".toList t))) :=
      SafeOver_trans (SafeOver_trans (SafeOver_replaceSub_safe (by decide) t)
        (SafeOver_replaceSub_safe (by decide) _)) (SafeOver_pageCitationSub _)
    have hout : ∀ cands,
        SafeOver (pageCitationSub (replaceSub ['\r'] ['\n'] (replaceSub "\r\n".toList "\n".toList t)))
          (joinWith ['\n'] (cleanTxtGo cands true (splitOnChar '\n'
            (pageCitationSub (replaceSub ['\r'] ['\n'] (replaceSub "\r\n".toList "\n".toList t)))))) := by
      intro cands c hc
      rcases mem_joinWith _ hc with h | ⟨ln, hln, hcln⟩
      · exact Or.inr ((List.mem_singleton.mp h) ▸ (by decide))
      · exact Or.inl (mem_splitOnChar (mem_cleanTxtGo _ _ hln) hcln)
    exact SafeOver_trans (SafeOver_trans (SafeOver_trans (SafeOver_trans ht2 (hout _))
      (SafeOver_inline_footnote_sub _)) (SafeOver_reSub safeMatcher_mNl3 _)) (SafeOver_stripWs _)


theorem SafeOver_txt_pipeline (t : List Char) : SafeOver t (txt_pipeline t) := by
  unfold txt_pipeline
  exact SafeOver_trans (SafeOver_trans (SafeOver_trans (SafeOver_trans (SafeOver_trans
    (SafeOver_trans (SafeOver_trans
      (SafeOver_pageCitationSub t)
      (SafeOver_fix_line_break_hyphenation _))
      (SafeOver_clean_txt_headers_and_footnotes _))
      (SafeOver_join_paragraphs_smart_txt _))
      (SafeOver_reSub safeMatcher_mUnderscoreRun _))
      (SafeOver_reSub safeMatcher_mForeignBorn _))
      (SafeOver_fix_punctuation_spacing _))
      (SafeOver_normalize _)

theorem SafeOver_pdf_pipeline (rh rf : Bool) (t : List Char) :
    SafeOver t (pdf_pipeline rh rf t) := by
  unfold pdf_pipeline
  dsimp only
  have h1 : SafeOver t
      (if rh then remove_bottom_page_numbers (strip_firstline_headers t) else t) := by
    split
    · exact SafeOver_trans (SafeOver_strip_firstline_headers t)
        (SafeOver_remove_bottom_page_numbers _)
    · exact SafeOver_refl t
  have h2 := SafeOver_trans h1 (SafeOver_fix_line_break_hyphenation
    (if rh then remove_bottom_page_numbers (strip_firstline_headers t) else t))
  have h3 : SafeOver t (if rf then
      remove_references (remove_citation_lines (remove_footnote_markers
        (fix_line_break_hyphenation
          (if rh then remove_bottom_page_numbers (strip_firstline_headers t) else t))))
    else pageCitationSub (fix_line_break_hyphenation
      (if rh then remove_bottom_page_numbers (strip_firstline_headers t) else t))) := by
    split
    · exact SafeOver_trans (SafeOver_trans (SafeOver_trans h2
        (SafeOver_remove_footnote_markers _)) (SafeOver_remove_citation_lines _))
        (SafeOver_remove_references _)
    · exact SafeOver_trans h2 (SafeOver_pageCitationSub _)
  exact SafeOver_trans (SafeOver_trans (SafeOver_trans h3
    (SafeOver_join_paragraphs_smart _)) (SafeOver_fix_punctuation_spacing _))
    (SafeOver_normalize _)

theorem reSubF_copied (m : Matcher) (P : Char → Prop)
    (hrepl : ∀ (prev : Option Char) (t : List Char) (k : Nat) (repl : List Char),
      m prev t = some (k, repl) → ∀ c ∈ repl, P c)
    (hcopy : ∀ (prev : Option Char) (x : Char) (rest : List Char),
      (m prev (x :: rest) = none ∨ ∃ repl, m prev (x :: rest) = some (0, repl)) → P x) :
    ∀ (fuel : Nat) (prev : Option Char) (s : List Char) (c : Char),
      c ∈ reSubF m fuel prev s → P c := by
  intro fuel
  induction fuel with
  | zero => intro prev s c hc; simp [reSubF] at hc
  | succ f ih =>
    intro prev s c hc
    cases s with
    | nil => simp [reSubF] at hc
    | cons x rest =>
      simp only [reSubF] at hc
      cases hm : m prev (x :: rest) with
      | none =>
        rw [hm] at hc
        rcases List.mem_cons.mp hc with h | h
        · exact h ▸ hcopy prev x rest (Or.inl hm)
        · exact ih _ _ _ h
      | some kr =>
        obtain ⟨k, repl⟩ := kr
        simp only [hm] at hc
        by_cases hk : k = 0
        · subst hk
          rw [if_pos rfl] at hc
          rcases List.mem_cons.mp hc with h | h
          · exact h ▸ hcopy prev x rest (Or.inr ⟨repl, hm⟩)
          · exact ih _ _ _ h
        · rw [if_neg hk] at hc
          rcases List.mem_append.mp hc with h | h
          · exact hrepl prev (x :: rest) k repl hm c h
          · exact ih _ _ _ h

theorem mDelChar_output_false (p : Char → Bool) :
    ∀ (fuel : Nat) (prev : Option Char) (s : List Char) (c : Char),
      c ∈ reSubF (mDelChar p) fuel prev s → p c = false := by
  refine reSubF_copied (mDelChar p) (fun c => p c = false) ?_ ?_
  · intro prev t k repl h c hc
    cases t with
    | nil => simp [mDelChar] at h
    | cons x r =>
      simp only [mDelChar] at h
      split at h
      · simp only [Option.some.injEq, Prod.mk.injEq] at h
        obtain ⟨h1, h2⟩ := h
        subst h2
        cases hc
      · cases h
  · intro prev x rest h
    by_cases hx : p x
    · exfalso
      have hm : mDelChar p prev (x :: rest) = some (1, []) := by simp [mDelChar, hx]
      rcases h with h | ⟨repl, h⟩
      · rw [hm] at h; cases h
      · rw [hm] at h
        simp only [Option.some.injEq, Prod.mk.injEq] at h
        obtain ⟨h1, h2⟩ := h
        exact absurd h1 one_ne_zero
    · exact Bool.eq_false_iff.mpr hx

theorem mWsRun_output_space :
    ∀ (fuel : Nat) (prev : Option Char) (s : List Char) (c : Char),
      c ∈ reSubF mWsRun fuel prev s → pyWs c = true → c = ' ' := by
  refine reSubF_copied mWsRun (fun c => pyWs c = true → c = ' ') ?_ ?_
  · intro prev t k repl h c hc
    simp only [mWsRun] at h
    split at h
    · cases h
    · simp only [Option.some.injEq, Prod.mk.injEq] at h
      obtain ⟨h1, h2⟩ := h
      subst h2
      intro _
      exact List.mem_singleton.mp hc
  · intro prev x rest h
    by_cases hx : pyWs x
    · exfalso
      have hm : mWsRun prev (x :: rest) =
          some ((rest.takeWhile pyWs).length + 1, [' ']) := by
        simp [mWsRun, List.takeWhile_cons, hx]
      rcases h with h | ⟨repl, h⟩
      · rw [hm] at h; cases h
      · rw [hm] at h
        simp only [Option.some.injEq, Prod.mk.injEq] at h
        obtain ⟨h1, h2⟩ := h
        exact absurd h1 (Nat.succ_ne_zero _)
    · intro hw
      exact absurd hw hx


theorem noCtrl_safeChars : ∀ c ∈ safeChars, ctrlChar c = false := by decide

theorem hasCtrl_eq_false_of {l : List Char} (h : ∀ c ∈ l, ctrlChar c = false) :
    hasCtrl l = false := by
  cases hout : hasCtrl l
  · rfl
  · exfalso
    unfold hasCtrl at hout
    obtain ⟨c, hc, hcc⟩ := List.any_eq_true.mp hout
    rw [h c hc] at hcc
    cases hcc

theorem noCtrl_of_SafeOver {t out : List Char} (hso : SafeOver t out)
    (ht : hasCtrl t = false) : hasCtrl out = false := by
  apply hasCtrl_eq_false_of
  intro c hc
  rcases hso c hc with h | h
  · cases hcc : ctrlChar c
    · rfl
    · exfalso
      have h2 : hasCtrl t = true := by
        unfold hasCtrl
        exact List.any_eq_true.mpr ⟨c, h, hcc⟩
      rw [ht] at h2
      cases h2
  · exact noCtrl_safeChars c h

theorem hasCtrl_simple_tts_clean (t : List Char) :
    hasCtrl (simple_tts_clean t) = false := by
  have hbase : ∀ c ∈ reSub (mDelChar ctrlChar) (reSub (mDelChar zwChar) t),
      ctrlChar c = false :=
    fun c hc => mDelChar_output_false ctrlChar _ none _ c hc
  have hso : SafeOver (reSub (mDelChar ctrlChar) (reSub (mDelChar zwChar) t))
      (simple_tts_clean t) := by
    unfold simple_tts_clean
    exact SafeOver_trans (SafeOver_wsCollapse _) (SafeOver_stripWs _)
  apply hasCtrl_eq_false_of
  intro c hc
  rcases hso c hc with h | h
  · exact hbase c h
  · exact noCtrl_safeChars c h

theorem hasCtrl_pre_result (text kind : List Char) (rh rf : Bool) :
    hasCtrl (pre_result text kind rh rf) = false := by
  unfold pre_result
  split
  · exact noCtrl_of_SafeOver (SafeOver_txt_pipeline _) (hasCtrl_simple_tts_clean text)
  · exact noCtrl_of_SafeOver (SafeOver_pdf_pipeline rh rf _) (hasCtrl_simple_tts_clean text)

theorem no_nl_normalize (t : List Char) : '\n' ∉ normalize_whitespace t := by
  intro h
  have h1 : ('\n' : Char) ∈ wsCollapse t := mem_stripWs h
  have h2 : ('\n' : Char) = ' ' := mWsRun_output_space t.length none t '\n' h1 (by decide)
  exact absurd h2 (by decide)

theorem hasDoubleNl_false_of_no_nl : ∀ l : List Char, '\n' ∉ l → hasDoubleNl l = false := by
  intro l
  induction l with
  | nil => intro _; rfl
  | cons x r ih =>
    intro h
    rw [hasDoubleNl.eq_def]
    split
    · rename_i rest heq
      exfalso
      injection heq with h1 h2
      subst h1
      exact h (List.mem_cons_self _ _)
    · rename_i y r2 heq
      injection heq with h1 h2
      subst h2
      exact ih (fun hmem => h (List.mem_cons_of_mem _ hmem))
    · rename_i heq
      cases heq

theorem hasDoubleNl_normalize (t : List Char) :
    hasDoubleNl (normalize_whitespace t) = false :=
  hasDoubleNl_false_of_no_nl _ (no_nl_normalize t)

theorem hasDoubleNl_pre_result (text kind : List Char) (rh rf : Bool) :
    hasDoubleNl (pre_result text kind rh rf) = false := by
  unfold pre_result
  split
  · unfold txt_pipeline
    exact hasDoubleNl_normalize _
  · unfold pdf_pipeline
    dsimp only
    exact hasDoubleNl_normalize _


/-- C4 (amended): for every input text, document kind and option settings, the
string returned by `clean_document` never contains two consecutive newline
characters; the pre-fallback pipeline result never contains control
characters; and whenever the original text itself is free of control
characters, the returned string (fallback path included) is too. The
unamended claim fails only on the under-yield fallback path, which returns
`normalize_whitespace(original)` and therefore keeps control characters
present in the original input (see
`clean_document_fallback_retains_control`). -/
theorem clean_document_flatten_invariant (text kind : List Char)
    (rh rf af : Bool) (ratio : ℚ) (absMin : Nat) :
    hasDoubleNl (clean_document text kind rh rf af ratio absMin) = false ∧
    hasCtrl (pre_result text kind rh rf) = false ∧
    (hasCtrl text = false →
      hasCtrl (clean_document text kind rh rf af ratio absMin) = false) := by
  refine ⟨?_, hasCtrl_pre_result text kind rh rf, ?_⟩
  · unfold clean_document
    split
    · rfl
    · dsimp only
      split
      · exact hasDoubleNl_normalize text
      · exact hasDoubleNl_pre_result text kind rh rf
  · intro ht
    unfold clean_document
    split
    · rfl
    · dsimp only
      split
      · exact noCtrl_of_SafeOver (SafeOver_normalize text) ht
      · exact hasCtrl_pre_result text kind rh rf

/-- C4 counterexample: on the input `"\x01"` with kind `"txt"` and the default
options, the whole TXT pipeline yields the empty string, the under-yield
fallback fires, and `clean_document` returns `normalize_whitespace("\x01")`,
which is `"\x01"` itself: the output of the fallback path contains a control
character, refuting the unamended invariant. -/
theorem clean_document_fallback_retains_control :
    clean_document ['\x01'] "txt".toList true true true (1/1000 : ℚ) 50 = ['\x01'] ∧
    hasCtrl (clean_document ['\x01'] "txt".toList true true true (1/1000 : ℚ) 50) = true :=
  ⟨by with_unfolding_all decide, by with_unfolding_all decide⟩

/-- Witness for `clean_document_flatten_invariant` at a concrete input: the
text `"ab"` has no control characters and neither does its cleaned result. -/
theorem clean_document_flatten_invariant_witness :
    hasCtrl "ab".toList = false ∧
    hasCtrl (clean_document "ab".toList "txt".toList true true true (1/1000 : ℚ) 50) = false :=
  ⟨by decide, (clean_document_flatten_invariant "ab".toList "txt".toList true true true
    (1/1000 : ℚ) 50).2.2 (by decide)⟩


end Bilbot
